import Mathlib

/-!
Verification development for the `codeallergy/value` Go library: a polymorphic
immutable value model with a deterministic MessagePack-compatible binary codec,
sorted maps and solid/sparse lists.

The development shallowly embeds the Go source:
* bytes are `Nat` values `< 256`, byte buffers are `List Nat`;
* Go `int64`/`int` are `Int` (with explicit two's-complement masking where the
  source casts), `uint64` is `Nat`;
* Go `nil` interface values are `Option.none`: the library distinguishes the
  explicit `Null` value from a `nil` interface, so decoded values and
  collection elements are `Option Value`;
* IEEE-754 doubles are carried as their 64-bit pattern (`Nat`); the epsilon
  comparison in `doubleNumber.Equal` is evaluated on the exact rational value
  of the (finite) patterns;
* fallible decoding returns `Except`; a Go runtime panic in the decoder is
  modelled as a distinguished error value.
-/

namespace GoValue

/-! ## MessagePack format constants (messagepacker.go) -/

def mpNil : Nat := 0xc0
def mpFalse : Nat := 0xc2
def mpTrue : Nat := 0xc3
def mpBin8 : Nat := 0xc4
def mpBin16 : Nat := 0xc5
def mpBin32 : Nat := 0xc6
def mpExt8 : Nat := 0xc7
def mpExt16 : Nat := 0xc8
def mpExt32 : Nat := 0xc9
def mpFloat32 : Nat := 0xca
def mpFloat64 : Nat := 0xcb
def mpUint8 : Nat := 0xcc
def mpUint16 : Nat := 0xcd
def mpUint32 : Nat := 0xce
def mpUint64 : Nat := 0xcf
def mpInt8 : Nat := 0xd0
def mpInt16 : Nat := 0xd1
def mpInt32 : Nat := 0xd2
def mpInt64 : Nat := 0xd3
def mpFixExt1 : Nat := 0xd4
def mpFixExt2 : Nat := 0xd5
def mpFixExt4 : Nat := 0xd6
def mpFixExt8 : Nat := 0xd7
def mpFixExt16 : Nat := 0xd8
def mpStr8 : Nat := 0xd9
def mpStr16 : Nat := 0xda
def mpStr32 : Nat := 0xdb
def mpArray16 : Nat := 0xdc
def mpArray32 : Nat := 0xdd
def mpMap16 : Nat := 0xde
def mpMap32 : Nat := 0xdf

/-! ## Big-endian byte encoding (binary.BigEndian.PutUintNN) -/

/-- Big-endian 2-byte encoding of a `uint16` (higher bits are masked off, as
the Go casts to `uint16` do). -/
def be16 (n : Nat) : List Nat := [n / 2^8 % 256, n % 256]

/-- Big-endian 4-byte encoding of a `uint32`. -/
def be32 (n : Nat) : List Nat :=
  [n / 2^24 % 256, n / 2^16 % 256, n / 2^8 % 256, n % 256]

/-- Big-endian 8-byte encoding of a `uint64`. -/
def be64 (n : Nat) : List Nat :=
  [n / 2^56 % 256, n / 2^48 % 256, n / 2^40 % 256, n / 2^32 % 256,
   n / 2^24 % 256, n / 2^16 % 256, n / 2^8 % 256, n % 256]

/-- Go `byte(val)` for a signed value: the low 8 bits in two's complement. -/
def intByte (v : Int) : Nat := (v % 256).toNat

/-- Go `uintNN(val)` for a signed value: the low bits in two's complement,
`m` is the modulus `2^NN`. -/
def intWord (v : Int) (m : Nat) : Nat := (v % (m : Int)).toNat

/-! ## messageWriter (messagepacker.go) -/

/-- `messageWriter.WriteNil`. -/
def writeNil : List Nat := [mpNil]

/-- `messageWriter.WriteBool`. -/
def writeBool (b : Bool) : List Nat := if b then [mpTrue] else [mpFalse]

/-- `messageWriter.writeVULong`: minimal-width unsigned encoding of a
non-negative value. -/
def writeVULong (v : Nat) : List Nat :=
  if v ≤ 0x7f then [v]
  else if v ≤ 0xff then [mpUint8, v]
  else if v ≤ 0xffff then mpUint16 :: be16 v
  else if v ≤ 0xffffffff then mpUint32 :: be32 v
  else mpUint64 :: be64 v

/-- `messageWriter.WriteLong`: minimal-width integer encoding, unsigned forms
preferred for non-negative values. -/
def writeLong (v : Int) : List Nat :=
  if 0 ≤ v then writeVULong v.toNat
  else if -32 ≤ v then [intByte v]
  else if -128 ≤ v then [mpInt8, intByte v]
  else if -32768 ≤ v then mpInt16 :: be16 (intWord v (2^16))
  else if -2147483648 ≤ v then mpInt32 :: be32 (intWord v (2^32))
  else mpInt64 :: be64 (intWord v (2^64))

/-- `messageWriter.WriteDouble`: always the 8-byte float64 form; the argument
is the IEEE-754 bit pattern. -/
def writeDouble (bits : Nat) : List Nat := mpFloat64 :: be64 bits

/-- `messageWriter.WriteBinHeader`. -/
def writeBinHeader (n : Nat) : List Nat :=
  if n ≤ 0xff then [mpBin8, n]
  else if n ≤ 0xffff then mpBin16 :: be16 n
  else mpBin32 :: be32 n

/-- `messageWriter.WriteStrHeader`. -/
def writeStrHeader (n : Nat) : List Nat :=
  if n < 32 then [0xa0 + n]
  else if n ≤ 0xff then [mpStr8, n]
  else if n ≤ 0xffff then mpStr16 :: be16 n
  else mpStr32 :: be32 n

/-- `messageWriter.WriteExtHeader`. -/
def writeExtHeader (n : Nat) (xtag : Nat) : List Nat :=
  if n = 1 then [mpFixExt1, xtag]
  else if n = 2 then [mpFixExt2, xtag]
  else if n = 4 then [mpFixExt4, xtag]
  else if n = 8 then [mpFixExt8, xtag]
  else if n = 16 then [mpFixExt16, xtag]
  else if n < 256 then [mpExt8, n, xtag]
  else if n < 65536 then mpExt16 :: (be16 n ++ [xtag])
  else mpExt32 :: (be32 n ++ [xtag])

/-- `messageWriter.WriteArrayHeader`. NOTE: the `default` branch of the Go
source writes the `mpArray16` code byte (0xdc) followed by a 4-byte length;
it never emits `mpArray32` (0xdd). This embedding reproduces that faithfully. -/
def writeArrayHeader (n : Nat) : List Nat :=
  if n < 16 then [0x90 + n]
  else if n ≤ 0xffff then mpArray16 :: be16 n
  else mpArray16 :: be32 n

/-- `messageWriter.WriteMapHeader`. -/
def writeMapHeader (n : Nat) : List Nat :=
  if n < 16 then [0x80 + n]
  else if n ≤ 0xffff then mpMap16 :: be16 n
  else mpMap32 :: be32 n

/-! ## big.Int gob encoding and decimal binary encoding

`bigIntNumber.Pack` serializes via `big.Int.GobEncode`: one byte
`version<<1 | sign` (version 1, so `2` for non-negative and `3` for negative)
followed by the big-endian magnitude with no leading zero bytes.
`decimalNumber.Pack` serializes via `decimal.Decimal.MarshalBinary`: the
4-byte big-endian `uint32(exp)` followed by the gob encoding of the
coefficient. -/

/-- Minimal big-endian byte string of a natural number (empty for zero),
as produced by `big.Int.Bytes`. -/
def natBytes (n : Nat) : List Nat :=
  if n = 0 then [] else natBytes (n / 256) ++ [n % 256]

/-- `big.Int.GobEncode`. -/
def gobBigInt (v : Int) : List Nat :=
  (if v < 0 then 3 else 2) :: natBytes v.natAbs

/-- `decimal.Decimal.MarshalBinary` payload: big-endian `uint32(exp)` then the
gob-encoded coefficient. -/
def decimalBinary (exp coeff : Int) : List Nat :=
  be32 (intWord exp (2^32)) ++ gobBigInt coeff

/-! ## The value model

One constructor per concrete Go value type:
`nullValue`, `boolValue`, `longNumber`, `doubleNumber` (bit pattern),
`bigIntNumber`, `decimalNumber` (exponent and coefficient), `uft8String`
(byte list), `rawString`, `unknownValue` (tag byte followed by data),
`solidListValue` (`[]Value`, whose elements may be Go `nil`),
`sparseListValue` (`[]ListItem`, integer keys) and `sortedMapValue`
(`[]MapEntry`, string keys). -/

inductive Value : Type where
  | null : Value
  | bool (b : Bool) : Value
  | long (v : Int) : Value
  | double (bits : Nat) : Value
  | bigint (v : Int) : Value
  | decimal (exp coeff : Int) : Value
  | utf8 (s : List Nat) : Value
  | raw (b : List Nat) : Value
  | unknown (tagAndData : List Nat) : Value
  | list (xs : List (Option Value)) : Value
  | sparse (items : List (Int × Option Value)) : Value
  | map (entries : List (List Nat × Option Value)) : Value

/-- `Kind` enumeration (value.go). -/
inductive Kind : Type where
  | NULL | BOOL | NUMBER | STRING | LIST | MAP | UNKNOWN
deriving DecidableEq

/-- `Value.Kind()` of each concrete type. -/
def kindOf : Value → Kind
  | .null => .NULL
  | .bool _ => .BOOL
  | .long _ | .double _ | .bigint _ | .decimal _ _ => .NUMBER
  | .utf8 _ | .raw _ => .STRING
  | .unknown _ => .UNKNOWN
  | .list _ | .sparse _ => .LIST
  | .map _ => .MAP

/-! ## Packing (the `Pack(Packer)` methods of every value type)

The `messagePacker` writes into a `bytes.Buffer`, whose writes never fail, so
value-level packing is a pure byte-list producer. Elements and entry values
that are Go `nil` are packed as nil tokens (the sources guard with
`if e != nil`). -/

mutual

def packValue : Value → List Nat
  | .null => writeNil
  | .bool b => writeBool b
  | .long v => writeLong v
  | .double bits => writeDouble bits
  | .bigint v => writeExtHeader (gobBigInt v).length 1 ++ gobBigInt v
  | .decimal e c => writeExtHeader (decimalBinary e c).length 2 ++ decimalBinary e c
  | .utf8 s => writeStrHeader s.length ++ s
  | .raw b => writeBinHeader b.length ++ b
  | .unknown d => writeExtHeader d.tail.length (d.headD 0) ++ d.tail
  | .list xs => writeArrayHeader xs.length ++ packElems xs
  | .sparse items => writeMapHeader items.length ++ packItems items
  | .map entries => writeMapHeader entries.length ++ packEntries entries

def packOpt : Option Value → List Nat
  | none => writeNil
  | some v => packValue v

def packElems : List (Option Value) → List Nat
  | [] => []
  | x :: rest => packOpt x ++ packElems rest

def packItems : List (Int × Option Value) → List Nat
  | [] => []
  | (k, v) :: rest => writeLong k ++ packOpt v ++ packItems rest

def packEntries : List (List Nat × Option Value) → List Nat
  | [] => []
  | (k, v) :: rest => (writeStrHeader k.length ++ k) ++ packOpt v ++ packEntries rest

end

/-- `Pack(val Value)` facade (value.go): a `nil` argument packs a nil token. -/
def Pack : Option Value → List Nat
  | none => writeNil
  | some v => packValue v

end GoValue

namespace GoValue

/-! ## IEEE-754 double helpers

Doubles are carried as 64-bit patterns. The helpers decode the pattern; a
finite pattern's exact value is a rational number. -/

def f64Sign (bits : Nat) : Nat := bits / 2^63 % 2

def f64Exp (bits : Nat) : Nat := bits / 2^52 % 2^11

def f64Frac (bits : Nat) : Nat := bits % 2^52

/-- `math.IsNaN` on the bit pattern. -/
def f64IsNaN (bits : Nat) : Bool := f64Exp bits = 2047 && f64Frac bits != 0

/-- `math.IsInf(_, 0)` on the bit pattern. -/
def f64IsInf (bits : Nat) : Bool := f64Exp bits = 2047 && f64Frac bits = 0

/-- Exact rational value of a finite double bit pattern. -/
def f64ToRat (bits : Nat) : ℚ :=
  let sgn : ℚ := if f64Sign bits = 1 then -1 else 1
  if f64Exp bits = 0 then sgn * (f64Frac bits : ℚ) / 2^1074
  else sgn * ((2^52 + f64Frac bits : Nat) : ℚ) * 2^(f64Exp bits) / 2^1075

/-- `PrecisionLevel = 0.00001` (number.go). The Go constant is the double
nearest to 1/100000; the epsilon tests below never sit between the two, so the
exact rational is used. -/
def precisionLevel : ℚ := 1 / 100000

/-! ## String renderings needed by the Equal methods -/

/-- ASCII bytes of a Lean string literal (all literals used are ASCII). -/
def strBytes (s : String) : List Nat := s.toList.map (fun c => c.toNat)

def base64Alphabet (n : Nat) : Nat :=
  if n < 26 then 65 + n
  else if n < 52 then 97 + (n - 26)
  else if n < 62 then 48 + (n - 52)
  else if n = 62 then 43 else 47

/-- `base64.RawStdEncoding.EncodeToString` (standard alphabet, no padding). -/
def base64Enc : List Nat → List Nat
  | [] => []
  | [a] => [base64Alphabet (a / 4), base64Alphabet (a % 4 * 16)]
  | [a, b] => [base64Alphabet (a / 4), base64Alphabet (a % 4 * 16 + b / 16),
               base64Alphabet (b % 16 * 4)]
  | a :: b :: c :: rest =>
      [base64Alphabet (a / 4), base64Alphabet (a % 4 * 16 + b / 16),
       base64Alphabet (b % 16 * 4 + c / 64), base64Alphabet (c % 64)] ++ base64Enc rest

/-- `Base64Prefix = "base64,"`. -/
def base64PrefixBytes : List Nat := strBytes "base64,"

/-- `String()` of a `String`-kind value: identity for `uft8String`, the
`base64,<data>` envelope for `rawString` (other kinds are unreachable behind
the `STRING` kind guard of the callers). -/
def stringText : Value → List Nat
  | .utf8 s => s
  | .raw b => base64PrefixBytes ++ base64Enc b
  | _ => []

/-- `String.Raw()`: the raw bytes of either string sub-type. -/
def stringRaw : Value → List Nat
  | .utf8 s => s
  | .raw b => b
  | _ => []

/-- `unknownValue.Native()`. -/
def unknownNative : Value → List Nat
  | .unknown d => d
  | _ => []

/-! ## Number projections (number.go)

The four `Number` implementations project to each other's domains via
`Long()/Double()/BigInt()/Decimal()`. Floating-point conversions are modelled
on the exact rational value: Go's `int64(float64)` truncation is exact for
in-range values, `big.Float.Float64` and `decimal.NewFromFloat` introduce
rounding/shortest-representation effects that are NOT reproduced; no theorem
below depends on a cross-sub-type numeric comparison. -/

/-- Truncation toward zero of a rational (Go numeric conversion semantics). -/
def ratTrunc (q : ℚ) : Int := if q < 0 then ⌈q⌉ else ⌊q⌋

/-- `Number.IsNaN()`. -/
def numIsNaN : Value → Bool
  | .double b => f64IsNaN b
  | _ => false

/-- `Number.Long()`. -/
def numLong : Value → Int
  | .long v => v
  | .double b => if f64IsNaN b then 0 else ratTrunc (f64ToRat b)
  | .bigint v => v
  | .decimal e c => if 0 ≤ e then c * 10 ^ e.toNat else ratTrunc ((c : ℚ) * 10 ^ (e : ℤ))
  | _ => 0

/-- `Number.Double()` as an exact rational; `none` models a NaN or infinite
result. -/
def numDoubleQ : Value → Option ℚ
  | .long v => some (v : ℚ)
  | .double b => if f64IsNaN b || f64IsInf b then none else some (f64ToRat b)
  | .bigint v => some (v : ℚ)
  | .decimal e c => some ((c : ℚ) * 10 ^ (e : ℤ))
  | _ => some 0

/-- `Number.BigInt()`. For `decimalNumber` the source returns
`Floor().Coefficient()`, which for a non-negative exponent is the raw
coefficient (a source quirk kept as-is). -/
def numBigInt : Value → Int
  | .long v => v
  | .double b => if f64IsNaN b then 0 else ratTrunc (f64ToRat b)
  | .bigint v => v
  | .decimal e c => if 0 ≤ e then c else ⌊(c : ℚ) * 10 ^ (e : ℤ)⌋
  | _ => 0

/-- `Number.Decimal()` as an (exponent, coefficient) pair.
`decimal.NewFromFloat`'s shortest-representation choice is not modelled; the
double case returns a placeholder and is unused by every theorem below. -/
def numDecimal : Value → Int × Int
  | .long v => (0, v)
  | .double _ => (0, 0)
  | .bigint v => (0, v)
  | .decimal e c => (e, c)
  | _ => (0, 0)

/-- `decimal.Decimal.Cmp(..) == 0`: both operands are rescaled to the smaller
exponent (an exact power-of-ten multiplication of the coefficient) and the
coefficients compared. -/
def decimalCmpEq (e1 c1 e2 c2 : Int) : Bool :=
  let m := min e1 e2
  decide (c1 * 10 ^ (e1 - m).toNat = c2 * 10 ^ (e2 - m).toNat)

/-- `boolValue.Boolean()`. -/
def boolVal : Value → Bool
  | .bool b => b
  | _ => false

/-! ## Collection accessors -/

/-- `sparseListValue.Len()`: zero when empty, otherwise the key of the last
entry plus one. -/
def sparseLen (items : List (Int × Option Value)) : Int :=
  match items.getLast? with
  | none => 0
  | some (k, _) => k + 1

/-- `Collection.Len()` for the two list implementations. -/
def listLen : Value → Int
  | .list xs => xs.length
  | .sparse items => sparseLen items
  | _ => 0

/-- `sort.Search`: binary search for the least index in `[lo, hi)` satisfying
`f`, assuming `f` is monotone (false then true); `hi` when none does. -/
def sortSearchAux (f : Nat → Bool) (lo hi : Nat) : Nat :=
  if _h : lo < hi then
    let m := (lo + hi) / 2
    if f m then sortSearchAux f lo m else sortSearchAux f (m + 1) hi
  else lo
termination_by hi - lo
decreasing_by
  all_goals omega

def sortSearch (n : Nat) (f : Nat → Bool) : Nat := sortSearchAux f 0 n

/-- Key of the item at index `j` (indices produced by `sort.Search` are always
in range on the Go side; the default is never observable there). -/
def itemKeyAt (items : List (Int × Option Value)) (j : Nat) : Int :=
  (items.getD j (0, none)).1

/-- `sparseListValue.GetAt`. -/
def sparseGetAt (items : List (Int × Option Value)) (key : Int) : Option Value :=
  let n := items.length
  let i := sortSearch n (fun j => decide (key ≤ itemKeyAt items j))
  if i = n then none
  else if itemKeyAt items i = key then (items.getD i (0, none)).2
  else none

/-- `List.GetAt` for both list implementations (out-of-range yields Go nil). -/
def listGetAt : Value → Int → Option Value
  | .list xs, i => if 0 ≤ i then xs.getD i.toNat none else none
  | .sparse items, key => sparseGetAt items key
  | _, _ => none

/-- `List.Items()` for both list implementations: the solid list enumerates
positions, the sparse list returns its entries. -/
def listItemsOf : Value → List (Int × Option Value)
  | .list xs => xs.enum.map (fun p => ((p.1 : Int), p.2))
  | .sparse items => items
  | _ => []

/-- `Map.Len()` (entry count). -/
def mapLen : Value → Int
  | .map es => es.length
  | _ => 0

/-- `Map.Entries()`. -/
def mapEntriesOf : Value → List (List Nat × Option Value)
  | .map es => es
  | _ => []

/-! ## Equality (the `Equal` methods and the nil-safe facade)

`Equal(left, right)` (value.go facade): a nil left operand is equal exactly to
a nil right operand; otherwise the left operand's method decides. The methods
are embedded per concrete type. The sparse-list and map methods iterate over
the receiver's entries indexing into the other side's entry slice; when the
other slice is shorter the Go code panics — modelled as `false` (no theorem
below reaches that case). -/

mutual

def Equal : Option Value → Option Value → Bool
  | none, r => r.isNone
  | some v, r => valueEqual v r

def valueEqual : Value → Option Value → Bool
  | .null, r =>
      match r with
      | none => true
      | some v => decide (kindOf v = .NULL)
  | .bool b, r =>
      match r with
      | none => false
      | some v => decide (kindOf v = .BOOL) && (b == boolVal v)
  | .long n, r =>
      match r with
      | none => false
      | some v => decide (kindOf v = .NUMBER) && decide (n = numLong v)
  | .double bits, r =>
      match r with
      | none => false
      | some v =>
          decide (kindOf v = .NUMBER) &&
          if f64IsNaN bits || numIsNaN v then false
          else
            match numDoubleQ (.double bits), numDoubleQ v with
            | some x, some y => decide (|x - y| < precisionLevel)
            | _, _ => false
  | .bigint n, r =>
      match r with
      | none => false
      | some v => decide (kindOf v = .NUMBER) && decide (n = numBigInt v)
  | .decimal e c, r =>
      match r with
      | none => false
      | some v =>
          decide (kindOf v = .NUMBER) &&
          decimalCmpEq e c (numDecimal v).1 (numDecimal v).2
  | .utf8 s, r =>
      match r with
      | none => false
      | some v => decide (kindOf v = .STRING) && decide (s = stringText v)
  | .raw b, r =>
      match r with
      | none => false
      | some v => decide (kindOf v = .STRING) && decide (b = stringRaw v)
  | .unknown d, r =>
      match r with
      | none => false
      | some v => decide (kindOf v = .UNKNOWN) && decide (d = unknownNative v)
  | .list xs, r =>
      match r with
      | none => false
      | some v =>
          decide (kindOf v = .LIST) && decide ((xs.length : Int) = listLen v) &&
          solidEqElems xs v 0
  | .sparse items, r =>
      match r with
      | none => false
      | some v =>
          decide (kindOf v = .LIST) && decide (sparseLen items = listLen v) &&
          itemsEqual items (listItemsOf v)
  | .map es, r =>
      match r with
      | none => false
      | some v =>
          decide (kindOf v = .MAP) && decide ((es.length : Int) = mapLen v) &&
          entriesEqual es (mapEntriesOf v)

def solidEqElems : List (Option Value) → Value → Int → Bool
  | [], _, _ => true
  | x :: rest, o, i => Equal x (listGetAt o i) && solidEqElems rest o (i + 1)

def itemsEqual : List (Int × Option Value) → List (Int × Option Value) → Bool
  | [], _ => true
  | _ :: _, [] => false
  | (k, v) :: rest, (k2, v2) :: rest2 =>
      decide (k = k2) && Equal v v2 && itemsEqual rest rest2

def entriesEqual : List (List Nat × Option Value) → List (List Nat × Option Value) → Bool
  | [], _ => true
  | _ :: _, [] => false
  | (k, v) :: rest, (k2, v2) :: rest2 =>
      decide (k = k2) && Equal v v2 && entriesEqual rest rest2

end

end GoValue

namespace GoValue

/-! ## Token formats and `nextFormat` (messagepacker.go) -/

inductive Format : Type where
  | EOF | UnexpectedEOF | NilToken | BoolToken | LongToken | DoubleToken
  | FixExtToken | BinHeader | StrHeader | ListHeader | MapHeader | ExtHeader
deriving DecidableEq

/-- The `mpCodeFormat` table for codes `0xc0 .. 0xdf`. -/
def mpCodeFormat : List Format :=
  [.NilToken, .NilToken, .BoolToken, .BoolToken,
   .BinHeader, .BinHeader, .BinHeader, .ExtHeader, .ExtHeader, .ExtHeader,
   .DoubleToken, .DoubleToken,
   .LongToken, .LongToken, .LongToken, .LongToken,
   .LongToken, .LongToken, .LongToken, .LongToken,
   .FixExtToken, .FixExtToken, .FixExtToken, .FixExtToken, .FixExtToken,
   .StrHeader, .StrHeader, .StrHeader,
   .ListHeader, .ListHeader,
   .MapHeader, .MapHeader]

/-- The `mpCodeSize` table for codes `0xc0 .. 0xdf`. -/
def mpCodeSize : List Nat :=
  [0, 0, 0, 0,
   1, 2, 4, 1, 2, 4,
   4, 8,
   1, 2, 4, 8,
   1, 2, 4, 8,
   2, 3, 5, 9, 17,
   1, 2, 4,
   2, 4,
   2, 4]

/-- `nextFormat(code)`: the token format and the number of header bytes
following the code byte. -/
def nextFormat (code : Nat) : Format × Nat :=
  if code ≤ 0x7f then (.LongToken, 0)
  else if code ≤ 0x8f then (.MapHeader, 0)
  else if code ≤ 0x9f then (.ListHeader, 0)
  else if code ≤ 0xbf then (.StrHeader, 0)
  else if code ≤ 0xdf then
    (mpCodeFormat.getD (code - 0xc0) .NilToken, mpCodeSize.getD (code - 0xc0) 0)
  else (.LongToken, 0)

/-! ## Big-endian reads and sign extension -/

def rdBe (bs : List Nat) : Nat := bs.foldl (fun acc b => acc * 256 + b) 0

def rd16 (bs : List Nat) : Nat := rdBe (bs.take 2)

def rd32 (bs : List Nat) : Nat := rdBe (bs.take 4)

def rd64 (bs : List Nat) : Nat := rdBe (bs.take 8)

/-- Go `int64(int8(n))`. -/
def sext8 (n : Nat) : Int := if n < 2^7 then (n : Int) else (n : Int) - 2^8

/-- Go `int64(int16(n))`. -/
def sext16 (n : Nat) : Int := if n < 2^15 then (n : Int) else (n : Int) - 2^16

/-- Go `int64(int32(n))`. -/
def sext32 (n : Nat) : Int := if n < 2^31 then (n : Int) else (n : Int) - 2^32

/-- Go `int64(n)` for a `uint64` (two's-complement reinterpretation). -/
def sext64 (n : Nat) : Int := if n < 2^63 then (n : Int) else (n : Int) - 2^64

/-! ## Decoder errors

Go distinguishes `io.EOF`, `io.ErrUnexpectedEOF`, parser format errors and
extension-decoding errors. A Go runtime panic (`panicNilItem` for the nil
`ListItem` read in `doParseMap`'s retroactive conversion, `panicNilSlice` for
an assignment into the never-allocated entries slice) and the model-only
outcomes (`fuelExhausted` for the recursion fuel, `modelGap` for behaviours of
the source that this embedding deliberately does not model: `float32`
widening, `String()` of collection keys) are distinguished errors. -/

inductive DErr : Type where
  | eof | unexpectedEof | parseErr | extDecodeErr
  | panicNilItem | panicNilSlice | fuelExhausted | modelGap
deriving DecidableEq

/-! ## messageParser (messagepacker.go) -/

/-- `messageParser.ParseBool`. -/
def parseBool (b : List Nat) : Except DErr Bool :=
  let code := b.headD 0
  if code = mpTrue then .ok true
  else if code = mpFalse then .ok false
  else .error .parseErr

/-- `messageParser.ParseLong`. -/
def parseLong (b : List Nat) : Except DErr Int :=
  let code := b.headD 0
  if code = mpUint8 then .ok (b.getD 1 0 : Nat)
  else if code = mpUint16 then .ok (rd16 (b.drop 1) : Nat)
  else if code = mpUint32 then .ok (rd32 (b.drop 1) : Nat)
  else if code = mpUint64 then .ok (sext64 (rd64 (b.drop 1)))
  else if code = mpInt8 then .ok (sext8 (b.getD 1 0))
  else if code = mpInt16 then .ok (sext16 (rd16 (b.drop 1)))
  else if code = mpInt32 then .ok (sext32 (rd32 (b.drop 1)))
  else if code = mpInt64 then .ok (sext64 (rd64 (b.drop 1)))
  else if code ≤ 0x7f then .ok (code : Nat)
  else if 0xe0 ≤ code ∧ code ≤ 0xff then .ok (sext8 code)
  else .error .parseErr

/-- `messageParser.ParseDouble`: the float64 bit pattern. The `float32`
widening branch is not modelled (the encoder never emits `0xca`). -/
def parseDouble (b : List Nat) : Except DErr Nat :=
  let code := b.headD 0
  if code = mpFloat32 then .error .modelGap
  else if code = mpFloat64 then .ok (rd64 (b.drop 1))
  else .error .parseErr

/-- `messageParser.ParseBin`. -/
def parseBin (b : List Nat) : Except DErr Nat :=
  let code := b.headD 0
  if code = mpBin8 then .ok (b.getD 1 0)
  else if code = mpBin16 then .ok (rd16 (b.drop 1))
  else if code = mpBin32 then .ok (rd32 (b.drop 1))
  else .error .parseErr

/-- `messageParser.ParseStr`. -/
def parseStr (b : List Nat) : Except DErr Nat :=
  let code := b.headD 0
  if 0xa0 ≤ code ∧ code ≤ 0xbf then .ok (code - 0xa0)
  else if code = mpStr8 then .ok (b.getD 1 0)
  else if code = mpStr16 then .ok (rd16 (b.drop 1))
  else if code = mpStr32 then .ok (rd32 (b.drop 1))
  else .error .parseErr

/-- `messageParser.ParseList`. -/
def parseList (b : List Nat) : Except DErr Nat :=
  let code := b.headD 0
  if 0x90 ≤ code ∧ code ≤ 0x9f then .ok (code - 0x90)
  else if code = mpArray16 then .ok (rd16 (b.drop 1))
  else if code = mpArray32 then .ok (rd32 (b.drop 1))
  else .error .parseErr

/-- `messageParser.ParseMap`. -/
def parseMap (b : List Nat) : Except DErr Nat :=
  let code := b.headD 0
  if 0x80 ≤ code ∧ code ≤ 0x8f then .ok (code - 0x80)
  else if code = mpMap16 then .ok (rd16 (b.drop 1))
  else if code = mpMap32 then .ok (rd32 (b.drop 1))
  else .error .parseErr

/-- `messageParser.ParseExt`: the payload length and the slice starting at the
tag byte. -/
def parseExt (b : List Nat) : Except DErr (Nat × List Nat) :=
  let code := b.headD 0
  if code = mpFixExt1 then .ok (1, b.drop 1)
  else if code = mpFixExt2 then .ok (2, b.drop 1)
  else if code = mpFixExt4 then .ok (4, b.drop 1)
  else if code = mpFixExt8 then .ok (8, b.drop 1)
  else if code = mpFixExt16 then .ok (16, b.drop 1)
  else if code = mpExt8 then .ok (b.getD 1 0, b.drop 2)
  else if code = mpExt16 then .ok (rd16 (b.drop 1), b.drop 3)
  else if code = mpExt32 then .ok (rd32 (b.drop 1), b.drop 5)
  else .error .parseErr

/-! ## messageBufUnpacker -/

inductive NextRes : Type where
  | eof
  | uneof
  | tok (f : Format) (header rest : List Nat)

/-- `messageBufUnpacker.Next()` over the remaining bytes. -/
def next (bs : List Nat) : NextRes :=
  match bs with
  | [] => .eof
  | c :: _ =>
      let fl := nextFormat c
      let n := 1 + fl.2
      if bs.length < n then .uneof
      else .tok fl.1 (bs.take n) (bs.drop n)

/-- `messageBufUnpacker.Read(n)` (the copy flag has no value-level effect). -/
def readN (n : Nat) (bs : List Nat) : Except DErr (List Nat × List Nat) :=
  if bs.length < n then .error .unexpectedEof
  else .ok (bs.take n, bs.drop n)

/-! ## Extension decoding (parse.go `doParseExt` and number.go unpackers) -/

/-- `big.Int.GobDecode`: version byte (`version<<1 | sign`, version must be 1)
followed by the big-endian magnitude. -/
def gobDecodeBigInt (b : List Nat) : Except DErr Int :=
  match b with
  | [] => .error .extDecodeErr
  | s :: mag =>
      if s / 2 ≠ 1 then .error .extDecodeErr
      else
        let m : Int := (rdBe mag : Nat)
        .ok (if s % 2 = 1 then -m else m)

/-- `decimal.Decimal.UnmarshalBinary`: 4-byte big-endian `int32` exponent then
the gob-encoded coefficient. -/
def decimalUnmarshal (b : List Nat) : Except DErr (Int × Int) :=
  if b.length < 4 then .error .extDecodeErr
  else do
    let e := sext32 (rd32 b)
    let c ← gobDecodeBigInt (b.drop 4)
    .ok (e, c)

/-- `doParseExt(tagAndData)`: tags 1 and 2 decode natively, every other tag
yields an opaque `unknownValue` retaining the whole slice. -/
def doParseExt (td : List Nat) : Except DErr Value :=
  let xtag := td.headD 0
  if xtag = 1 then (gobDecodeBigInt td.tail).map .bigint
  else if xtag = 2 then (decimalUnmarshal td.tail).map (fun p => .decimal p.1 p.2)
  else .ok (.unknown td)

/-! ## Sorting fallback for unsorted decoded collections

`SparseList(items, false)` and `SortedMap(entries, false)` sort with Go's
(unstable) `sort.Sort`; entries with equal keys may be permuted arbitrarily
there. This embedding uses a stable insertion sort — the difference is
observable only for duplicate keys arriving out of order, which no theorem
below exercises. -/

def insertByLe {α : Type} (le : α → α → Bool) (x : α) : List α → List α
  | [] => [x]
  | y :: rest => if le x y then x :: y :: rest else y :: insertByLe le x rest

def sortByLe {α : Type} (le : α → α → Bool) : List α → List α
  | [] => []
  | x :: rest => insertByLe le x (sortByLe le rest)

/-- `SparseList(items, sortedItems)` (sparselist.go). -/
def sparseListOf (items : List (Int × Option Value)) (sorted : Bool) : Value :=
  .sparse (if sorted then items else sortByLe (fun a b => decide (a.1 ≤ b.1)) items)

/-- Go string comparison `a < b` on byte strings. -/
def strLt : List Nat → List Nat → Bool
  | _, [] => false
  | [], _ :: _ => true
  | a :: as, b :: bs => if a < b then true else if b < a then false else strLt as bs

/-- `SortedMap(entries, sortedEntries)` (sortedmap.go). -/
def sortedMapOf (entries : List (List Nat × Option Value)) (sorted : Bool) : Value :=
  .map (if sorted then entries
        else sortByLe (fun a b => !(strLt b.1 a.1)) entries)

/-! ## `String()` of decoded map keys

`doParseMap` renders non-Number keys with `Value.String()`. Decoded keys are
never the explicit Null (nil tokens decode to Go nil and are skipped), and
Number keys take the sparse-list branch, so `String()` is only ever applied to
bool, string, unknown or collection keys there. Collection keys would use the
recursive JSON rendering (with float formatting), which this embedding does
not model: those return `none` and decoding reports a model gap. -/

def natDec (n : Nat) : List Nat :=
  if n < 10 then [48 + n] else natDec (n / 10) ++ [48 + n % 10]

def intDec (v : Int) : List Nat :=
  if v < 0 then 45 :: natDec v.natAbs else natDec v.toNat

def goStringKey : Value → Option (List Nat)
  | .null => some (strBytes "null")
  | .bool b => some (strBytes (if b then "true" else "false"))
  | .long v => some (intDec v)
  | .double _ => none
  | .bigint _ => none
  | .decimal _ _ => none
  | .utf8 s => some s
  | .raw b => some (base64PrefixBytes ++ base64Enc b)
  | .unknown d => some (strBytes "data:application/x-msgpack-ext;" ++ base64PrefixBytes ++ base64Enc d)
  | _ => none

end GoValue

namespace GoValue

/-! ## The generic value parser (parse.go `doParse`, `doParseList`,
`doParseMap`)

The recursion is fueled: each nesting level consumes one unit (the Go
recursion is bounded by the input length, and `Unpack` below supplies the
input length as fuel, which the round-trip development shows sufficient).

`doParseMapLoop` carries the loop state of `doParseMap`: the iteration index
`i`, whether the first iteration has allocated the result slices (`inited`),
the sparse-list hypothesis flag, both accumulators, the sortedness flag and
the previous keys. Nil keys are skipped (`continue`); in Go the skip leaves a
nil hole in the pre-allocated slice, which this accumulator model does not
reproduce — no theorem below decodes a wire map containing nil keys.

When the sparse-list hypothesis is abandoned (`mayBeList` was set and a
non-Number key arrives at iteration `i ≥ 1`), the Go source runs
`for j := 0; j < i; j++ { item := sparseListItems[i]; ... }` — it indexes the
slice with `i` (the current, not-yet-assigned position) instead of `j`, so
`item` is nil and `item.Key()` panics unconditionally: modelled as the
`panicNilItem` error. -/

mutual

def doParse (fuel : Nat) (bs : List Nat) : Except DErr (Option Value × List Nat) :=
  match fuel with
  | 0 => .error .fuelExhausted
  | fuel + 1 =>
    match next bs with
    | .eof => .error .eof
    | .uneof => .error .unexpectedEof
    | .tok f header rest =>
      match f with
      | .NilToken => .ok (none, rest)
      | .BoolToken => (parseBool header).map (fun b => (some (.bool b), rest))
      | .LongToken => (parseLong header).map (fun v => (some (.long v), rest))
      | .DoubleToken => (parseDouble header).map (fun bits => (some (.double bits), rest))
      | .FixExtToken => do
          let v ← doParseExt header.tail
          .ok (some v, rest)
      | .BinHeader => do
          let size ← parseBin header
          let p ← readN size rest
          .ok (some (.raw p.1), p.2)
      | .StrHeader => do
          let n ← parseStr header
          let p ← readN n rest
          .ok (some (.utf8 p.1), p.2)
      | .ListHeader => do
          let cnt ← parseList header
          if cnt = 0 then .ok (some (.list []), rest)
          else (doParseElems fuel cnt rest).map (fun p => (some (.list p.1), p.2))
      | .MapHeader => do
          let cnt ← parseMap header
          if cnt = 0 then .ok (some (.map []), rest)
          else doParseMapLoop fuel cnt rest 0 false false [] [] true 0 []
      | .ExtHeader => do
          let nd ← parseExt header
          let p ← readN (nd.1 + 1) rest
          let v ← doParseExt p.1
          .ok (some v, p.2)
      | _ => .error .parseErr
termination_by (fuel, 0, 0)

def doParseElems (fuel cnt : Nat) (bs : List Nat) :
    Except DErr (List (Option Value) × List Nat) :=
  match cnt with
  | 0 => .ok ([], bs)
  | cnt + 1 => do
      let e ← doParse fuel bs
      let p ← doParseElems fuel cnt e.2
      .ok (e.1 :: p.1, p.2)
termination_by (fuel, 1, cnt)

def doParseMapLoop (fuel rem : Nat) (bs : List Nat) (i : Nat)
    (inited mayBeList : Bool)
    (items : List (Int × Option Value)) (entries : List (List Nat × Option Value))
    (sorted : Bool) (prevListKey : Int) (prevMapKey : List Nat) :
    Except DErr (Option Value × List Nat) :=
  match rem with
  | 0 =>
      if mayBeList then .ok (some (sparseListOf items sorted), bs)
      else .ok (some (sortedMapOf entries sorted), bs)
  | rem + 1 => do
      let kp ← doParse fuel bs
      let vp ← doParse fuel kp.2
      match kp.1 with
      | none =>
          doParseMapLoop fuel rem vp.2 (i + 1) inited mayBeList items entries
            sorted prevListKey prevMapKey
      | some k =>
          let inited2 := if i = 0 then true else inited
          let mayBe2 := if i = 0 then decide (kindOf k = .NUMBER) else mayBeList
          if inited2 = false then .error .panicNilSlice
          else if mayBe2 then
            if kindOf k = .NUMBER then
              let kk := numLong k
              let sorted2 := if 0 < i ∧ prevListKey > kk then false else sorted
              doParseMapLoop fuel rem vp.2 (i + 1) inited2 true
                (items ++ [(kk, vp.1)]) entries sorted2 kk prevMapKey
            else .error .panicNilItem
          else
            match goStringKey k with
            | none => .error .modelGap
            | some ks =>
                let sorted2 := if 0 < i ∧ strLt ks prevMapKey = true then false else sorted
                doParseMapLoop fuel rem vp.2 (i + 1) inited2 false
                  items (entries ++ [(ks, vp.1)]) sorted2 prevListKey ks
termination_by (fuel, 1, rem)

end

/-- `Unpack(buf, copy)` facade: one `Parse` over a buffer unpacker (the result
value only; the copy flag has no value-level effect). The input length bounds
the recursion depth of the Go parser and serves as fuel. -/
def Unpack (bs : List Nat) : Except DErr (Option Value) :=
  (doParse bs.length bs).map (fun p => p.1)

end GoValue

namespace GoValue

/-! ## sortedMapValue mutators (sortedmap.go)

Entries are `(key bytes, value)` pairs kept in ascending key order. All
mutators locate the position with `sort.Search` over the predicate
`t[i].Key() >= key`. The source's `append/replaceAt/insertAt/removeAt/
insertSliceAt/removeSliceAt` helpers split on `i = 0`, `i+1 = n` and the
fast-append flag purely to reuse backing arrays; every branch produces the
same entry sequence, embedded here as the corresponding list operation. -/

/-- Go `a <= b` on byte strings. -/
def strLe (a b : List Nat) : Bool := !(strLt b a)

def entryKeyAt (t : List (List Nat × Option Value)) (j : Nat) : List Nat :=
  (t.getD j ([], none)).1

/-- The `sort.Search` call shared by the sorted-map mutators. -/
def mapSearch (t : List (List Nat × Option Value)) (key : List Nat) : Nat :=
  sortSearch t.length (fun j => strLe key (entryKeyAt t j))

/-- `sortedMapValue.Put`: upsert. -/
def mapPut (t : List (List Nat × Option Value)) (key : List Nat) (value : Option Value) :
    List (List Nat × Option Value) :=
  let n := t.length
  let i := mapSearch t key
  if i = n then t ++ [(key, value)]
  else if entryKeyAt t i = key then t.set i (key, value)
  else t.take i ++ (key, value) :: t.drop i

/-- `sortedMapValue.Insert`: always inserts a new slot. -/
def mapInsert (t : List (List Nat × Option Value)) (key : List Nat) (value : Option Value) :
    List (List Nat × Option Value) :=
  let n := t.length
  let i := mapSearch t key
  if i = n then t ++ [(key, value)]
  else t.take i ++ (key, value) :: t.drop i

/-- `sortedMapValue.Remove`: removes the first exact match. -/
def mapRemove (t : List (List Nat × Option Value)) (key : List Nat) :
    List (List Nat × Option Value) :=
  let n := t.length
  let i := mapSearch t key
  if i = n then t
  else if entryKeyAt t i = key then t.take i ++ t.drop (i + 1)
  else t

/-- `sortedMapValue.InsertAll`: inserts all values under the same key at the
searched position. -/
def mapInsertAll (t : List (List Nat × Option Value)) (key : List Nat)
    (list : List (Option Value)) : List (List Nat × Option Value) :=
  if list.length = 0 then t
  else
    let slice := list.map (fun v => (key, v))
    let n := t.length
    let i := mapSearch t key
    if i = n then t ++ slice
    else t.take i ++ slice ++ t.drop i

/-- `sortedMapValue.DeleteAll`: removes the contiguous run of exact matches
starting at the searched position. -/
def mapDeleteAll (t : List (List Nat × Option Value)) (key : List Nat) :
    List (List Nat × Option Value) :=
  let n := t.length
  let i := mapSearch t key
  if i = n then t
  else
    let cnt := ((t.drop i).takeWhile (fun e => e.1 = key)).length
    t.take i ++ t.drop (i + cnt)

/-- Ascending (non-strict: `Insert` deliberately permits duplicates) key order
of a sorted map's entry list. -/
def mapSorted : List (List Nat × Option Value) → Bool
  | [] => true
  | [_] => true
  | a :: b :: rest => strLe a.1 b.1 && mapSorted (b :: rest)

/-- A map built by a sequence of `Put` operations on the empty map. -/
def mapPutAll (ps : List (List Nat × Option Value)) : List (List Nat × Option Value) :=
  ps.foldl (fun t p => mapPut t p.1 p.2) []

/-! ## sparseListValue mutators (sparselist.go) -/

/-- The `sort.Search` call shared by the sparse-list mutators. -/
def sparseSearch (items : List (Int × Option Value)) (key : Int) : Nat :=
  sortSearch items.length (fun j => decide (key ≤ itemKeyAt items j))

/-- `sparseListValue.PutAt`. -/
def sparsePutAt (items : List (Int × Option Value)) (key : Int) (value : Option Value) :
    List (Int × Option Value) :=
  let n := items.length
  let i := sparseSearch items key
  if i = n then items ++ [(key, value)]
  else if itemKeyAt items i = key then items.set i (key, value)
  else items.take i ++ (key, value) :: items.drop i

/-- Ascending (non-strict) key order of a sparse list's item list. -/
def sparseSorted : List (Int × Option Value) → Bool
  | [] => true
  | [_] => true
  | a :: b :: rest => decide (a.1 ≤ b.1) && sparseSorted (b :: rest)

/-! ## messagePacker with a failing writer (messagepacker.go)

`MessagePacker` returns `*messagePacker`, but every method except `PackExt`
has a VALUE receiver `(p messagePacker)`: the method operates on a copy, so
its `p.err = ...` assignment is discarded when the method returns. Within one
method body the local copy's error field is visible (so a failed first write
skips the second), and the `io.Writer` is shared by reference, so writes
persist. The embedding threads an explicit writer state whose first
`failuresLeft` writes fail. -/

inductive WErr : Type where
  | writeFailed
deriving DecidableEq

structure TestWriter : Type where
  failuresLeft : Nat
  written : List Nat
deriving DecidableEq

def twWrite (w : TestWriter) (bs : List Nat) : TestWriter × Option WErr :=
  if 0 < w.failuresLeft then
    ({ w with failuresLeft := w.failuresLeft - 1 }, some .writeFailed)
  else ({ w with written := w.written ++ bs }, none)

structure PackerState : Type where
  w : TestWriter
  err : Option WErr
deriving DecidableEq

/-- `messagePacker.PackLong` — value receiver: the error of a failed write is
assigned to the copy's field and lost on return. -/
def packerPackLong (p : PackerState) (v : Int) : PackerState :=
  if p.err = none then { p with w := (twWrite p.w (writeLong v)).1 }
  else p

/-- `messagePacker.PackBool` — value receiver, like `PackLong`. -/
def packerPackBool (p : PackerState) (b : Bool) : PackerState :=
  if p.err = none then { p with w := (twWrite p.w (writeBool b)).1 }
  else p

/-- `messagePacker.PackNil` — value receiver, like `PackLong`. -/
def packerPackNil (p : PackerState) : PackerState :=
  if p.err = none then { p with w := (twWrite p.w writeNil).1 }
  else p

/-- `messagePacker.PackStr` — value receiver: two writes, the second guarded
by the copy's error field; both assignments to `err` are lost on return. -/
def packerPackStr (p : PackerState) (s : List Nat) : PackerState :=
  if p.err = none then
    let r1 := twWrite p.w (writeStrHeader s.length)
    match r1.2 with
    | some _ => { p with w := r1.1 }
    | none => { p with w := (twWrite r1.1 s).1 }
  else p

/-- `messagePacker.PackExt` — the one POINTER receiver: its error assignments
persist in the packer state. -/
def packerPackExt (p : PackerState) (xtag : Nat) (data : List Nat) : PackerState :=
  if p.err = none then
    let r1 := twWrite p.w (writeExtHeader data.length xtag)
    match r1.2 with
    | some e => { w := r1.1, err := some e }
    | none =>
        let r2 := twWrite r1.1 data
        { w := r2.1, err := r2.2 }
  else p

/-- `messagePacker.Error()`. -/
def packerError (p : PackerState) : Option WErr := p.err

end GoValue

namespace GoValue

/-! ## Round-trip apparatus

`decodeOf v` is the value that decoding `packValue v` produces (the explicit
Null packs to a nil token, which decodes to Go nil, i.e. `none`).

`rtOKValue` delimits the values for which the round trip holds; each conjunct
is forced by a concrete failure of the unrestricted claim:
* longs must fit `int64` and decimal exponents `int32` (inherent Go ranges;
  the Lean model carries unbounded `Int`), and the BigInt/Decimal binary
  payloads must fit the `uint32` extension-header length;
* doubles must be neither NaN nor infinite (`Equal` is false on those even
  against an identical pattern);
* string/binary/key lengths and sparse/map entry counts must fit `uint32`
  and solid lists must stay under 65536 elements (the `WriteArrayHeader`
  default branch emits a corrupt header above that);
* the reserved extension tags 1 and 2 must not appear in an `unknownValue`
  (they would decode as BigInt/Decimal), and the tag byte exists and is a
  byte;
* sparse lists must be non-empty (the empty one packs to the same bytes as
  the empty map and decodes to a Map) and sorted with `int64` keys;
* map entry lists must be sorted (unsorted ones are re-sorted on decode). -/

mutual

def decodeOf : Value → Option Value
  | .null => none
  | .list xs => some (.list (decodeElems xs))
  | .sparse items => some (.sparse (decodeItems items))
  | .map es => some (.map (decodeEntries es))
  | v => some v

def decodeOpt : Option Value → Option Value
  | none => none
  | some v => decodeOf v

def decodeElems : List (Option Value) → List (Option Value)
  | [] => []
  | x :: rest => decodeOpt x :: decodeElems rest

def decodeItems : List (Int × Option Value) → List (Int × Option Value)
  | [] => []
  | (k, v) :: rest => (k, decodeOpt v) :: decodeItems rest

def decodeEntries : List (List Nat × Option Value) → List (List Nat × Option Value)
  | [] => []
  | (k, v) :: rest => (k, decodeOpt v) :: decodeEntries rest

end

mutual

def rtOKValue : Value → Bool
  | .null => true
  | .bool _ => true
  | .long v => decide (-(2^63) ≤ v ∧ v < 2^63)
  | .double bits => decide (bits < 2^64) && decide (f64Exp bits ≠ 2047)
  | .bigint v => decide ((gobBigInt v).length < 2^32)
  | .decimal e c =>
      decide (-(2^31) ≤ e ∧ e < 2^31) && decide ((decimalBinary e c).length < 2^32)
  | .utf8 s => decide (s.length < 2^32)
  | .raw b => decide (b.length < 2^32)
  | .unknown d =>
      !d.isEmpty && decide (d.headD 0 < 256) &&
      decide (d.headD 0 ≠ 1) && decide (d.headD 0 ≠ 2) &&
      decide (d.tail.length < 2^32)
  | .list xs => decide (xs.length < 65536) && rtOKElems xs
  | .sparse items =>
      !items.isEmpty && decide (items.length < 2^32) &&
      sparseSorted items && rtOKItems items
  | .map es =>
      decide (es.length < 2^32) && mapSorted es && rtOKEntries es

def rtOKOpt : Option Value → Bool
  | none => true
  | some v => rtOKValue v

def rtOKElems : List (Option Value) → Bool
  | [] => true
  | x :: rest => rtOKOpt x && rtOKElems rest

def rtOKItems : List (Int × Option Value) → Bool
  | [] => true
  | (k, v) :: rest =>
      decide (-(2^63) ≤ k ∧ k < 2^63) && rtOKOpt v && rtOKItems rest

def rtOKEntries : List (List Nat × Option Value) → Bool
  | [] => true
  | (k, v) :: rest => decide (k.length < 2^32) && rtOKOpt v && rtOKEntries rest

end

/-! Fuel needed by `doParse` to decode `packValue v`: the nesting depth. -/

mutual

def depthV : Value → Nat
  | .list xs => 1 + depthElems xs
  | .sparse items => 1 + depthItems items
  | .map es => 1 + depthEntries es
  | _ => 1

def depthOpt : Option Value → Nat
  | none => 1
  | some v => depthV v

def depthElems : List (Option Value) → Nat
  | [] => 0
  | x :: rest => max (depthOpt x) (depthElems rest)

def depthItems : List (Int × Option Value) → Nat
  | [] => 0
  | (_, v) :: rest => max (depthOpt v) (depthItems rest)

def depthEntries : List (List Nat × Option Value) → Nat
  | [] => 0
  | (_, v) :: rest => max (depthOpt v) (depthEntries rest)

end

end GoValue

namespace GoValue

/-- Entry order used by the sorted-map invariant. -/
@[reducible] def entryLe (a b : List Nat × Option Value) : Prop := strLe a.1 b.1 = true

/-- Item order used by the sparse-list invariant. -/
@[reducible] def itemLe (a b : Int × Option Value) : Prop := a.1 ≤ b.1

/-- The exact rational value of a `decimalNumber` (coefficient times a power
of ten). -/
def decimalValue (e c : Int) : ℚ := (c : ℚ) * 10 ^ (e : ℤ)

/-- The largest key stored in a sparse list (0 when empty, like Go's loop
over an empty slice). -/
def itemsMaxKey : List (Int × Option Value) → Int
  | [] => 0
  | (k, _) :: rest => rest.foldl (fun m p => max m p.1) k

end GoValue

namespace GoValue

/-- Strict entry order (distinct keys), used to show the canonical form of a
sorted map with no duplicate keys is unique. -/
def entryLt (a b : List Nat × Option Value) : Prop := strLt a.1 b.1 = true

end GoValue

namespace GoValue

/-! ## General lemmas: `sort.Search` -/

theorem sortSearchAux_ge (f : Nat → Bool) (lo hi : Nat) : lo ≤ sortSearchAux f lo hi := by
  induction lo, hi using sortSearchAux.induct f with
  | case1 lo hi h m hm ih =>
      have hm2 : m = (lo + hi) / 2 := rfl
      rw [sortSearchAux, dif_pos h, if_pos (hm2 ▸ hm)]
      rw [← hm2]
      omega
  | case2 lo hi h m hm ih =>
      have hm2 : m = (lo + hi) / 2 := rfl
      rw [sortSearchAux, dif_pos h, if_neg (by simp [hm2 ▸ hm])]
      rw [← hm2]
      omega
  | case3 lo hi h =>
      rw [sortSearchAux, dif_neg h]

theorem sortSearchAux_le (f : Nat → Bool) (lo hi : Nat) (hlh : lo ≤ hi) :
    sortSearchAux f lo hi ≤ hi := by
  induction lo, hi using sortSearchAux.induct f with
  | case1 lo hi h m hm ih =>
      have hm2 : m = (lo + hi) / 2 := rfl
      rw [sortSearchAux, dif_pos h, if_pos (hm2 ▸ hm)]
      rw [← hm2]
      have h2 := ih (by omega)
      omega
  | case2 lo hi h m hm ih =>
      have hm2 : m = (lo + hi) / 2 := rfl
      rw [sortSearchAux, dif_pos h, if_neg (by simp [hm2 ▸ hm])]
      rw [← hm2]
      have h2 := ih (by omega)
      omega
  | case3 lo hi h =>
      rw [sortSearchAux, dif_neg h]
      omega

/-- If the search lands strictly inside the interval, the predicate holds
there (no monotonicity needed). -/
theorem sortSearchAux_found (f : Nat → Bool) (lo hi : Nat)
    (h : sortSearchAux f lo hi < hi) : f (sortSearchAux f lo hi) = true := by
  induction lo, hi using sortSearchAux.induct f with
  | case1 lo hi hlt m hm ih =>
      have hm2 : m = (lo + hi) / 2 := rfl
      rw [sortSearchAux, dif_pos hlt, if_pos (hm2 ▸ hm)] at h ⊢
      rw [← hm2] at h ⊢
      rcases Nat.lt_or_ge (sortSearchAux f lo m) m with h2 | h2
      · exact ih h2
      · have h3 := sortSearchAux_le f lo m (by omega)
        have h4 : sortSearchAux f lo m = m := by omega
        rw [h4]
        exact hm
  | case2 lo hi hlt m hm ih =>
      have hm2 : m = (lo + hi) / 2 := rfl
      rw [sortSearchAux, dif_pos hlt, if_neg (by simp [hm2 ▸ hm])] at h ⊢
      rw [← hm2] at h ⊢
      exact ih h
  | case3 lo hi hlt =>
      rw [sortSearchAux, dif_neg hlt] at h
      omega

/-- Below the search result the predicate is false, provided it is monotone
on the searched interval. -/
theorem sortSearchAux_below (f : Nat → Bool) (lo hi : Nat)
    (M : ∀ j j', j ≤ j' → j' < hi → f j = true → f j' = true)
    (k : Nat) (hk1 : lo ≤ k) (hk2 : k < sortSearchAux f lo hi) : f k = false := by
  induction lo, hi using sortSearchAux.induct f with
  | case1 lo hi hlt m hm ih =>
      have hm2 : m = (lo + hi) / 2 := rfl
      rw [sortSearchAux, dif_pos hlt, if_pos (hm2 ▸ hm)] at hk2
      rw [← hm2] at hk2
      exact ih (fun j j' hj hj' hf => M j j' hj (by omega) hf) hk1 hk2
  | case2 lo hi hlt m hm ih =>
      have hm2 : m = (lo + hi) / 2 := rfl
      rw [sortSearchAux, dif_pos hlt, if_neg (by simp [hm2 ▸ hm])] at hk2
      rw [← hm2] at hk2
      rcases Nat.lt_or_ge k (m + 1) with h2 | h2
      · cases h3 : f k with
        | false => rfl
        | true =>
            have h4 := M k m (by omega) (by omega) h3
            exact absurd h4 hm
      · exact ih M h2 hk2
  | case3 lo hi hlt =>
      rw [sortSearchAux, dif_neg hlt] at hk2
      omega

theorem sortSearch_le (n : Nat) (f : Nat → Bool) : sortSearch n f ≤ n :=
  sortSearchAux_le f 0 n (Nat.zero_le n)

theorem sortSearch_found (n : Nat) (f : Nat → Bool) (h : sortSearch n f < n) :
    f (sortSearch n f) = true :=
  sortSearchAux_found f 0 n h

theorem sortSearch_below (n : Nat) (f : Nat → Bool)
    (M : ∀ j j', j ≤ j' → j' < n → f j = true → f j' = true)
    (k : Nat) (hk : k < sortSearch n f) : f k = false :=
  sortSearchAux_below f 0 n M k (Nat.zero_le k) hk

end GoValue

namespace GoValue

/-! ## General lemmas: Go byte-string order -/

theorem strLt_cons (x y : Nat) (xs ys : List Nat) :
    strLt (x :: xs) (y :: ys)
      = if x < y then true else if y < x then false else strLt xs ys := rfl

theorem strLt_irrefl (a : List Nat) : strLt a a = false := by
  induction a with
  | nil => rfl
  | cons x xs ih => simp [strLt_cons, ih]

theorem strLt_asymm {a b : List Nat} (h : strLt a b = true) : strLt b a = false := by
  induction a generalizing b with
  | nil =>
      cases b with
      | nil => simp [strLt] at h
      | cons y ys => simp [strLt]
  | cons x xs ih =>
      cases b with
      | nil => simp [strLt] at h
      | cons y ys =>
          rw [strLt_cons] at h
          rw [strLt_cons]
          rcases Nat.lt_trichotomy x y with h1 | h1 | h1
          · rw [if_neg (by omega : ¬ y < x), if_pos h1]
          · subst h1
            rw [if_neg (by omega), if_neg (by omega)] at h ⊢
            exact ih h
          · rw [if_neg (by omega : ¬ x < y), if_pos h1] at h
            exact absurd h (by simp)

theorem strLt_total {a b : List Nat} (h1 : strLt a b = false) (h2 : strLt b a = false) :
    a = b := by
  induction a generalizing b with
  | nil =>
      cases b with
      | nil => rfl
      | cons y ys => simp [strLt] at h1
  | cons x xs ih =>
      cases b with
      | nil => simp [strLt] at h2
      | cons y ys =>
          rw [strLt_cons] at h1 h2
          rcases Nat.lt_trichotomy x y with h3 | h3 | h3
          · rw [if_pos h3] at h1
            exact absurd h1 (by simp)
          · subst h3
            rw [if_neg (by omega), if_neg (by omega)] at h1 h2
            rw [ih h1 h2]
          · rw [if_pos h3] at h2
            exact absurd h2 (by simp)

theorem strLt_trans {a b c : List Nat} (h1 : strLt a b = true) (h2 : strLt b c = true) :
    strLt a c = true := by
  induction a generalizing b c with
  | nil =>
      cases b with
      | nil => simp [strLt] at h1
      | cons y ys =>
          cases c with
          | nil => simp [strLt] at h2
          | cons z zs => simp [strLt]
  | cons x xs ih =>
      cases b with
      | nil => simp [strLt] at h1
      | cons y ys =>
          cases c with
          | nil => simp [strLt] at h2
          | cons z zs =>
              rw [strLt_cons] at h1 h2
              rw [strLt_cons]
              rcases Nat.lt_trichotomy x y with hxy | hxy | hxy
              · rcases Nat.lt_trichotomy y z with hyz | hyz | hyz
                · rw [if_pos (by omega)]
                · subst hyz
                  rw [if_pos hxy]
                · rw [if_neg (by omega), if_pos hyz] at h2
                  exact absurd h2 (by simp)
              · subst hxy
                rcases Nat.lt_trichotomy x z with hyz | hyz | hyz
                · rw [if_pos hyz]
                · subst hyz
                  rw [if_neg (by omega), if_neg (by omega)] at h1 h2 ⊢
                  exact ih h1 h2
                · rw [if_neg (by omega), if_pos hyz] at h2
                  exact absurd h2 (by simp)
              · rw [if_neg (by omega), if_pos hxy] at h1
                exact absurd h1 (by simp)

theorem strLe_refl (a : List Nat) : strLe a a = true := by
  simp [strLe, strLt_irrefl]

theorem strLe_of_lt {a b : List Nat} (h : strLt a b = true) : strLe a b = true := by
  simp [strLe, strLt_asymm h]

theorem strLt_of_le_ne {a b : List Nat} (h1 : strLe a b = true) (h2 : a ≠ b) :
    strLt a b = true := by
  simp only [strLe, Bool.not_eq_true'] at h1
  cases h3 : strLt a b with
  | true => rfl
  | false => exact absurd (strLt_total h3 h1) h2

theorem strLe_trans {a b c : List Nat} (h1 : strLe a b = true) (h2 : strLe b c = true) :
    strLe a c = true := by
  simp only [strLe, Bool.not_eq_true'] at h1 h2 ⊢
  cases hbc : strLt b c with
  | true =>
      cases hca : strLt c a with
      | false => rfl
      | true =>
          have h3 := strLt_trans hbc hca
          rw [h3] at h1
          exact h1
  | false =>
      have h3 : b = c := strLt_total hbc h2
      subst h3
      exact h1

theorem strLe_total (a b : List Nat) : strLe a b = true ∨ strLe b a = true := by
  simp only [strLe, Bool.not_eq_true']
  cases h : strLt b a with
  | false => exact Or.inl rfl
  | true => exact Or.inr (strLt_asymm h)

end GoValue

namespace GoValue

/-! ## Sorted-collection invariant lemmas -/

theorem mapSorted_pairwise {t : List (List Nat × Option Value)} :
    mapSorted t = true ↔ t.Pairwise entryLe := by
  induction t with
  | nil => simp [mapSorted]
  | cons a rest ih =>
      cases rest with
      | nil => simp [mapSorted]
      | cons b r =>
          rw [mapSorted, Bool.and_eq_true]
          constructor
          · rintro ⟨h1, h2⟩
            have h3 := ih.mp h2
            refine List.Pairwise.cons ?_ h3
            intro x hx
            rcases List.mem_cons.mp hx with h4 | h4
            · subst h4
              exact h1
            · have h5 := (List.pairwise_cons.mp h3).1 x h4
              exact strLe_trans h1 h5
          · intro h
            have h1 := List.pairwise_cons.mp h
            exact ⟨h1.1 b (List.mem_cons_self b r), ih.mpr h1.2⟩

theorem sparseSorted_pairwise {t : List (Int × Option Value)} :
    sparseSorted t = true ↔ t.Pairwise itemLe := by
  induction t with
  | nil => simp [sparseSorted]
  | cons a rest ih =>
      cases rest with
      | nil => simp [sparseSorted]
      | cons b r =>
          rw [sparseSorted, Bool.and_eq_true]
          constructor
          · rintro ⟨h1, h2⟩
            have h3 := ih.mp h2
            refine List.Pairwise.cons ?_ h3
            intro x hx
            rcases List.mem_cons.mp hx with h4 | h4
            · subst h4
              exact of_decide_eq_true h1
            · have h5 := (List.pairwise_cons.mp h3).1 x h4
              exact le_trans (of_decide_eq_true h1) h5
          · intro h
            have h1 := List.pairwise_cons.mp h
            exact ⟨decide_eq_true (h1.1 b (List.mem_cons_self b r)), ih.mpr h1.2⟩

end GoValue

namespace GoValue

/-! ## Sorted-map search characterization and mutator sortedness -/

theorem entryKeyAt_eq {t : List (List Nat × Option Value)} {k : Nat}
    (h : k < t.length) : entryKeyAt t k = t[k].1 := by
  rw [entryKeyAt, List.getD_eq_getElem t _ h]

/-- On a sorted entry list, every entry strictly before the searched position
has key strictly below the target. -/
theorem mapSearch_take {t : List (List Nat × Option Value)} {key : List Nat}
    (hs : t.Pairwise entryLe) :
    ∀ a ∈ t.take (mapSearch t key), strLt a.1 key = true := by
  intro a ha
  rcases List.mem_iff_getElem.mp ha with ⟨k, hk, hget⟩
  have hk2 : k < t.length := by
    have := List.length_take_le (mapSearch t key) t
    have h3 := (List.length_take (mapSearch t key) t)
    omega
  have hidx := List.pairwise_iff_getElem.mp hs
  have hklt : k < mapSearch t key := by
    have := List.length_take (mapSearch t key) t
    omega
  have hbelow : strLe key (entryKeyAt t k) = false :=
    sortSearch_below t.length (fun j => strLe key (entryKeyAt t j))
      (fun j j' hj hj' hf => by
        rcases Nat.eq_or_lt_of_le hj with h | h
        · subst h
          exact hf
        · have h4 := hidx j j' (by omega) hj' h
          exact strLe_trans hf ((entryKeyAt_eq (show j < t.length by omega)) ▸
            (entryKeyAt_eq hj') ▸ h4))
      k hklt
  rw [entryKeyAt_eq hk2] at hbelow
  have hgt : strLt t[k].1 key = true := by
    simp only [strLe, Bool.not_eq_false'] at hbelow
    exact hbelow
  have hae : a = t[k] := by
    rw [← hget, List.getElem_take]
  rw [hae]
  exact hgt

/-- On a sorted entry list, every entry from the searched position on has key
at or above the target. -/
theorem mapSearch_drop {t : List (List Nat × Option Value)} {key : List Nat}
    (hs : t.Pairwise entryLe) :
    ∀ a ∈ t.drop (mapSearch t key), strLe key a.1 = true := by
  intro a ha
  rcases List.mem_iff_getElem.mp ha with ⟨k, hk, hget⟩
  have hlen : (t.drop (mapSearch t key)).length = t.length - mapSearch t key :=
    List.length_drop _ _
  have hik : mapSearch t key + k < t.length := by omega
  have hieq : (t.drop (mapSearch t key))[k] = t[mapSearch t key + k] := by
    rw [List.getElem_drop]
  have hm : sortSearch t.length (fun j => strLe key (entryKeyAt t j)) = mapSearch t key :=
    rfl
  have hfound : strLe key (entryKeyAt t (mapSearch t key)) = true := by
    have := sortSearch_found t.length (fun j => strLe key (entryKeyAt t j)) (by omega)
    rw [hm] at this
    exact this
  rw [entryKeyAt_eq (show mapSearch t key < t.length by omega)] at hfound
  have hidx := List.pairwise_iff_getElem.mp hs
  have h5 : strLe t[mapSearch t key].1 t[mapSearch t key + k].1 = true := by
    rcases Nat.eq_zero_or_pos k with h | h
    · subst h
      exact strLe_refl _
    · exact hidx (mapSearch t key) (mapSearch t key + k) (by omega) hik (by omega)
  have h6 := strLe_trans hfound h5
  rw [← hget, hieq]
  exact h6

/-- Splicing a block into a sorted list at a search-compatible position keeps
it sorted. -/
theorem pairwise_splice {t mid : List (List Nat × Option Value)} {i j : Nat}
    (hs : t.Pairwise entryLe)
    (hmid : mid.Pairwise entryLe)
    (hbefore : ∀ a ∈ t.take i, ∀ b ∈ mid, entryLe a b)
    (hafter : ∀ b ∈ mid, ∀ c ∈ t.drop (i + j), entryLe b c) :
    (t.take i ++ mid ++ t.drop (i + j)).Pairwise entryLe := by
  have hsub1 : t.Pairwise entryLe → (t.take i).Pairwise entryLe :=
    fun h => h.sublist (List.take_sublist i t)
  have hsub2 : (t.drop (i + j)).Pairwise entryLe := hs.sublist (List.drop_sublist _ t)
  have hcross : ∀ a ∈ t.take i, ∀ c ∈ t.drop (i + j), entryLe a c := by
    intro a ha c hc
    have hsplit : (t.take i ++ t.drop i).Pairwise entryLe := by
      rw [List.take_append_drop]
      exact hs
    have h1 := (List.pairwise_append.mp hsplit).2.2 a ha c
    apply h1
    have : t.drop (i + j) = (t.drop i).drop j := by
      rw [List.drop_drop]
    rw [this] at hc
    exact (List.drop_sublist j (t.drop i)).mem hc
  rw [List.append_assoc]
  rw [List.pairwise_append]
  refine ⟨hsub1 hs, ?_, ?_⟩
  · rw [List.pairwise_append]
    exact ⟨hmid, hsub2, hafter⟩
  · intro a ha b hb
    rcases List.mem_append.mp hb with h | h
    · exact hbefore a ha b h
    · exact hcross a ha b h

/-- C8 workhorse: `Put` preserves sortedness. -/
theorem mapPut_pairwise {t : List (List Nat × Option Value)} {key : List Nat}
    {v : Option Value} (hs : t.Pairwise entryLe) :
    (mapPut t key v).Pairwise entryLe := by
  rw [mapPut]
  by_cases h1 : mapSearch t key = t.length
  · rw [if_pos h1]
    rw [List.pairwise_append]
    refine ⟨hs, List.pairwise_singleton _ _, ?_⟩
    intro a ha b hb
    rcases List.mem_singleton.mp hb with rfl
    have := @mapSearch_take _ key hs a (by rw [h1, List.take_length]; exact ha)
    exact strLe_of_lt this
  · rw [if_neg h1]
    have hlt : mapSearch t key < t.length :=
      Nat.lt_of_le_of_ne (sortSearch_le _ _) h1
    by_cases h2 : entryKeyAt t (mapSearch t key) = key
    · rw [if_pos h2]
      rw [List.set_eq_take_append_cons_drop, if_pos hlt]
      have h3 : t.take (mapSearch t key) ++ (key, v) :: t.drop (mapSearch t key + 1)
          = t.take (mapSearch t key) ++ [(key, v)] ++ t.drop (mapSearch t key + 1) := by
        simp
      rw [h3]
      refine pairwise_splice hs (List.pairwise_singleton _ _) ?_ ?_
      · intro a ha b hb
        rcases List.mem_singleton.mp hb with rfl
        exact strLe_of_lt (mapSearch_take hs a ha)
      · intro b hb c hc
        rcases List.mem_singleton.mp hb with rfl
        have hc2 : c ∈ t.drop (mapSearch t key) := by
          have : t.drop (mapSearch t key + 1) = (t.drop (mapSearch t key)).drop 1 := by
            rw [List.drop_drop]
          rw [this] at hc
          exact (List.drop_sublist 1 _).mem hc
        exact mapSearch_drop hs c hc2
    · rw [if_neg h2]
      have h3 : t.take (mapSearch t key) ++ (key, v) :: t.drop (mapSearch t key)
          = t.take (mapSearch t key) ++ [(key, v)] ++ t.drop (mapSearch t key + 0) := by
        simp
      rw [h3]
      refine pairwise_splice hs (List.pairwise_singleton _ _) ?_ ?_
      · intro a ha b hb
        rcases List.mem_singleton.mp hb with rfl
        exact strLe_of_lt (mapSearch_take hs a ha)
      · intro b hb c hc
        rcases List.mem_singleton.mp hb with rfl
        rw [Nat.add_zero] at hc
        exact mapSearch_drop hs c hc

end GoValue

namespace GoValue

theorem mapInsert_pairwise {t : List (List Nat × Option Value)} {key : List Nat}
    {v : Option Value} (hs : t.Pairwise entryLe) :
    (mapInsert t key v).Pairwise entryLe := by
  rw [mapInsert]
  by_cases h1 : mapSearch t key = t.length
  · rw [if_pos h1]
    rw [List.pairwise_append]
    refine ⟨hs, List.pairwise_singleton _ _, ?_⟩
    intro a ha b hb
    rcases List.mem_singleton.mp hb with rfl
    have := @mapSearch_take _ key hs a (by rw [h1, List.take_length]; exact ha)
    exact strLe_of_lt this
  · rw [if_neg h1]
    have h3 : t.take (mapSearch t key) ++ (key, v) :: t.drop (mapSearch t key)
        = t.take (mapSearch t key) ++ [(key, v)] ++ t.drop (mapSearch t key + 0) := by
      simp
    rw [h3]
    refine pairwise_splice hs (List.pairwise_singleton _ _) ?_ ?_
    · intro a ha b hb
      rcases List.mem_singleton.mp hb with rfl
      exact strLe_of_lt (mapSearch_take hs a ha)
    · intro b hb c hc
      rcases List.mem_singleton.mp hb with rfl
      rw [Nat.add_zero] at hc
      exact mapSearch_drop hs c hc

theorem mapInsertAll_pairwise {t : List (List Nat × Option Value)} {key : List Nat}
    {vs : List (Option Value)} (hs : t.Pairwise entryLe) :
    (mapInsertAll t key vs).Pairwise entryLe := by
  rw [mapInsertAll]
  by_cases h0 : vs.length = 0
  · rw [if_pos h0]
    exact hs
  · rw [if_neg h0]
    have hmid : (vs.map (fun v => (key, v))).Pairwise entryLe := by
      rw [List.pairwise_map]
      exact List.Pairwise.imp (fun _ => strLe_refl key)
        (List.pairwise_of_forall (fun _ _ => trivial))
    by_cases h1 : mapSearch t key = t.length
    · rw [if_pos h1]
      rw [List.pairwise_append]
      refine ⟨hs, hmid, ?_⟩
      intro a ha b hb
      rcases List.mem_map.mp hb with ⟨v, _, rfl⟩
      have := @mapSearch_take _ key hs a (by rw [h1, List.take_length]; exact ha)
      exact strLe_of_lt this
    · rw [if_neg h1]
      have h3 : t.take (mapSearch t key) ++ vs.map (fun v => (key, v)) ++ t.drop (mapSearch t key)
          = t.take (mapSearch t key) ++ vs.map (fun v => (key, v))
            ++ t.drop (mapSearch t key + 0) := by
        simp
      rw [h3]
      refine pairwise_splice hs hmid ?_ ?_
      · intro a ha b hb
        rcases List.mem_map.mp hb with ⟨v, _, rfl⟩
        exact strLe_of_lt (mapSearch_take hs a ha)
      · intro b hb c hc
        rcases List.mem_map.mp hb with ⟨v, _, rfl⟩
        rw [Nat.add_zero] at hc
        exact mapSearch_drop hs c hc

theorem take_drop_sublist {α : Type} (t : List α) (i m : Nat) :
    List.Sublist (t.take i ++ t.drop (i + m)) t := by
  have h1 : t.drop (i + m) = (t.drop i).drop m := by
    rw [List.drop_drop]
  rw [h1]
  have h2 := List.Sublist.append_left (List.drop_sublist m (t.drop i)) (t.take i)
  have h3 : t.take i ++ t.drop i = t := List.take_append_drop i t
  rw [h3] at h2
  exact h2

theorem mapRemove_pairwise {t : List (List Nat × Option Value)} {key : List Nat}
    (hs : t.Pairwise entryLe) :
    (mapRemove t key).Pairwise entryLe := by
  rw [mapRemove]
  by_cases h1 : mapSearch t key = t.length
  · rw [if_pos h1]
    exact hs
  · rw [if_neg h1]
    by_cases h2 : entryKeyAt t (mapSearch t key) = key
    · rw [if_pos h2]
      exact List.Pairwise.sublist (take_drop_sublist t (mapSearch t key) 1) hs
    · rw [if_neg h2]
      exact hs

theorem mapDeleteAll_pairwise {t : List (List Nat × Option Value)} {key : List Nat}
    (hs : t.Pairwise entryLe) :
    (mapDeleteAll t key).Pairwise entryLe := by
  rw [mapDeleteAll]
  by_cases h1 : mapSearch t key = t.length
  · rw [if_pos h1]
    exact hs
  · rw [if_neg h1]
    exact List.Pairwise.sublist (take_drop_sublist t (mapSearch t key) _) hs

end GoValue

namespace GoValue

instance : IsAntisymm (List Nat × Option Value) entryLt :=
  ⟨fun _ _ h1 h2 => absurd h2 (by simp [entryLt, strLt_asymm h1])⟩

/-! ## Order independence of `Put` sequences with distinct keys -/

theorem mapPut_perm_of_not_mem {t : List (List Nat × Option Value)} {key : List Nat}
    {v : Option Value} (hnm : key ∉ t.map Prod.fst) :
    (mapPut t key v).Perm ((key, v) :: t) := by
  rw [mapPut]
  by_cases h1 : mapSearch t key = t.length
  · rw [if_pos h1]
    exact List.perm_append_singleton _ _
  · rw [if_neg h1]
    have hlt : mapSearch t key < t.length :=
      Nat.lt_of_le_of_ne (sortSearch_le _ _) h1
    by_cases h2 : entryKeyAt t (mapSearch t key) = key
    · exfalso
      apply hnm
      rw [entryKeyAt_eq hlt] at h2
      rw [← h2]
      exact List.mem_map_of_mem Prod.fst (List.getElem_mem hlt)
    · rw [if_neg h2]
      have h3 := @List.perm_middle _ (key, v) (t.take (mapSearch t key))
        (t.drop (mapSearch t key))
      rw [List.take_append_drop] at h3
      exact h3

theorem mapPutAll_aux (ps : List (List Nat × Option Value)) :
    ∀ acc : List (List Nat × Option Value), acc.Pairwise entryLe →
    (∀ q ∈ ps, q.1 ∉ acc.map Prod.fst) → (ps.map Prod.fst).Nodup →
    (ps.foldl (fun t p => mapPut t p.1 p.2) acc).Perm (acc ++ ps) ∧
    (ps.foldl (fun t p => mapPut t p.1 p.2) acc).Pairwise entryLe := by
  induction ps with
  | nil =>
      intro acc hsort _ _
      simp [hsort]
  | cons p ps ih =>
      intro acc hsort hdisj hnd
      have hp : p.1 ∉ acc.map Prod.fst := hdisj p (List.mem_cons_self p ps)
      have hperm1 : (mapPut acc p.1 p.2).Perm ((p.1, p.2) :: acc) :=
        mapPut_perm_of_not_mem hp
      have hsort1 : (mapPut acc p.1 p.2).Pairwise entryLe := mapPut_pairwise hsort
      have hkeys : ((mapPut acc p.1 p.2).map Prod.fst).Perm (p.1 :: acc.map Prod.fst) := by
        have := hperm1.map Prod.fst
        simpa using this
      have hnd' : p.1 ∉ ps.map Prod.fst ∧ (ps.map Prod.fst).Nodup := by
        rw [List.map_cons, List.nodup_cons] at hnd
        exact hnd
      have hdisj2 : ∀ q ∈ ps, q.1 ∉ (mapPut acc p.1 p.2).map Prod.fst := by
        intro q hq hmem
        have h5 := (hkeys.mem_iff).mp hmem
        rcases List.mem_cons.mp h5 with h6 | h6
        · have h7 : p.1 ∈ ps.map Prod.fst := h6 ▸ List.mem_map_of_mem Prod.fst hq
          exact hnd'.1 h7
        · exact hdisj q (List.mem_cons_of_mem p hq) h6
      have hnd2 : (ps.map Prod.fst).Nodup := hnd'.2
      have hih := ih (mapPut acc p.1 p.2) hsort1 hdisj2 hnd2
      refine ⟨?_, by simpa using hih.2⟩
      have h9 : (ps.foldl (fun t p => mapPut t p.1 p.2) (mapPut acc p.1 p.2)).Perm
          ((mapPut acc p.1 p.2) ++ ps) := hih.1
      refine (h9.trans (hperm1.append_right ps)).trans ?_
      simp only [List.cons_append]
      exact List.perm_middle.symm

theorem mapPutAll_perm {ps : List (List Nat × Option Value)}
    (hnd : (ps.map Prod.fst).Nodup) : (mapPutAll ps).Perm ps := by
  have := mapPutAll_aux ps [] (List.Pairwise.nil) (by simp) hnd
  simpa [mapPutAll] using this.1

theorem mapPutAll_pairwise {ps : List (List Nat × Option Value)}
    (hnd : (ps.map Prod.fst).Nodup) : (mapPutAll ps).Pairwise entryLe := by
  have := mapPutAll_aux ps [] (List.Pairwise.nil) (by simp) hnd
  exact this.2

theorem mapPutAll_sorted_strict {ps : List (List Nat × Option Value)}
    (hnd : (ps.map Prod.fst).Nodup) : (mapPutAll ps).Pairwise entryLt := by
  have h1 := mapPutAll_pairwise hnd
  have h2 : ((mapPutAll ps).map Prod.fst).Nodup :=
    ((mapPutAll_perm hnd).map Prod.fst).nodup_iff.mpr hnd
  have h3 : (mapPutAll ps).Pairwise (fun a b => a.1 ≠ b.1) := by
    rw [List.Nodup, List.pairwise_map] at h2
    exact h2
  have h4 := h1.and h3
  exact h4.imp (fun h => strLt_of_le_ne h.1 h.2)

/-- Order independence of `Put` sequences whose keys are pairwise distinct:
the resulting entry lists are equal, hence so are the packed bytes. -/
theorem mapPutAll_order_independent {ps qs : List (List Nat × Option Value)}
    (hperm : ps.Perm qs) (hnd : (ps.map Prod.fst).Nodup) :
    mapPutAll ps = mapPutAll qs := by
  have hndq : (qs.map Prod.fst).Nodup := ((hperm.map Prod.fst).nodup_iff).mp hnd
  have h1 : (mapPutAll ps).Perm (mapPutAll qs) :=
    ((mapPutAll_perm hnd).trans hperm).trans (mapPutAll_perm hndq).symm
  exact List.eq_of_perm_of_sorted h1 (mapPutAll_sorted_strict hnd)
    (mapPutAll_sorted_strict hndq)

end GoValue

namespace GoValue

/-! ## Sparse-list length lemma -/

theorem getLast_eq_max {items : List (Int × Option Value)}
    (hs : items.Pairwise itemLe) (hne : items ≠ []) :
    (items.getLast hne).1 = itemsMaxKey items := by
  induction items with
  | nil => exact absurd rfl hne
  | cons a rest ih =>
      cases rest with
      | nil => simp [itemsMaxKey]
      | cons b r =>
          have h1 := List.pairwise_cons.mp hs
          have hab : a.1 ≤ b.1 := h1.1 b (List.mem_cons_self b r)
          have h2 := ih h1.2 (by simp)
          rw [List.getLast_cons (by simp)]
          rw [h2]
          show itemsMaxKey (b :: r) = itemsMaxKey (a :: b :: r)
          rw [itemsMaxKey, itemsMaxKey]
          rw [List.foldl_cons]
          rw [max_eq_right hab]

theorem sparseLen_eq_max {items : List (Int × Option Value)}
    (hs : sparseSorted items = true) (hne : items ≠ []) :
    sparseLen items = itemsMaxKey items + 1 := by
  rw [sparseLen, List.getLast?_eq_getLast items hne]
  have h1 := getLast_eq_max (sparseSorted_pairwise.mp hs) hne
  rcases h2 : items.getLast hne with ⟨k, v⟩
  rw [h2] at h1
  simpa using h1

end GoValue

namespace GoValue

/-! ## Token-level decode lemmas -/

theorem next_eq (c : Nat) (tail : List Nat) (f : Format) (len : Nat)
    (hnf : nextFormat c = (f, len)) (hlen : len ≤ tail.length) :
    next (c :: tail) = .tok f (c :: tail.take len) (tail.drop len) := by
  rw [next]
  simp only [hnf]
  rw [if_neg (by simp; omega)]
  rw [Nat.add_comm 1 len]
  simp [List.take_succ_cons, List.drop_succ_cons]

theorem nextFormat_fixint {c : Nat} (h : c ≤ 0x7f) : nextFormat c = (.LongToken, 0) := by
  rw [nextFormat, if_pos h]

theorem nextFormat_negfix {c : Nat} (h1 : 0xe0 ≤ c) (h2 : c ≤ 0xff) :
    nextFormat c = (.LongToken, 0) := by
  rw [nextFormat]
  rw [if_neg (by omega), if_neg (by omega), if_neg (by omega), if_neg (by omega),
    if_neg (by omega)]

theorem nextFormat_fixmap {c : Nat} (h1 : 0x80 ≤ c) (h2 : c ≤ 0x8f) :
    nextFormat c = (.MapHeader, 0) := by
  rw [nextFormat, if_neg (by omega), if_pos h2]

theorem nextFormat_fixarray {c : Nat} (h1 : 0x90 ≤ c) (h2 : c ≤ 0x9f) :
    nextFormat c = (.ListHeader, 0) := by
  rw [nextFormat, if_neg (by omega), if_neg (by omega), if_pos h2]

theorem nextFormat_fixstr {c : Nat} (h1 : 0xa0 ≤ c) (h2 : c ≤ 0xbf) :
    nextFormat c = (.StrHeader, 0) := by
  rw [nextFormat, if_neg (by omega), if_neg (by omega), if_neg (by omega), if_pos h2]

theorem rd16_be16 {n : Nat} (h : n < 2^16) : rd16 (be16 n) = n := by
  simp [rd16, be16, rdBe]
  omega

theorem rd32_be32 {n : Nat} (h : n < 2^32) : rd32 (be32 n) = n := by
  simp [rd32, be32, rdBe]
  omega

theorem rd64_be64 {n : Nat} (h : n < 2^64) : rd64 (be64 n) = n := by
  simp [rd64, be64, rdBe]
  omega

theorem sext8_intByte {v : Int} (h1 : -128 ≤ v) (h2 : v < 0) :
    sext8 (intByte v) = v := by
  rw [intByte, sext8]
  have h3 : v % 256 = v + 256 := by omega
  rw [if_neg (by omega)]
  omega

theorem sext16_intWord {v : Int} (h1 : -32768 ≤ v) (h2 : v < 0) :
    sext16 (intWord v (2^16)) = v := by
  rw [intWord, sext16]
  have h3 : v % 65536 = v + 65536 := by omega
  rw [if_neg (by norm_num; omega)]
  norm_num
  omega

theorem sext32_intWord {v : Int} (h1 : -2147483648 ≤ v) (h2 : v < 0) :
    sext32 (intWord v (2^32)) = v := by
  rw [intWord, sext32]
  have h3 : v % 4294967296 = v + 4294967296 := by omega
  rw [if_neg (by norm_num; omega)]
  norm_num
  omega

theorem sext64_intWord {v : Int} (h1 : -(2^63) ≤ v) (h2 : v < 0) :
    sext64 (intWord v (2^64)) = v := by
  rw [intWord, sext64]
  have h3 : v % 18446744073709551616 = v + 18446744073709551616 := by omega
  rw [if_neg (by norm_num; omega)]
  norm_num
  omega

theorem sext64_small {n : Nat} (h : n < 2^63) : sext64 n = n := by
  rw [sext64, if_pos (by norm_num; omega)]

theorem intWord_small {v : Int} {m : Nat} (h1 : 0 ≤ v) (h2 : v < (m : Int)) :
    intWord v m = v.toNat := by
  rw [intWord, Int.emod_eq_of_lt h1 h2]

end GoValue

namespace GoValue

/-! ## Decoding `WriteLong` output -/

theorem parseLong_fixint {c : Nat} (h : c ≤ 0x7f) (tl : List Nat) :
    parseLong (c :: tl) = .ok (c : Int) := by
  rw [parseLong]
  simp only [List.headD_cons]
  rw [if_neg (by simp [mpUint8]; omega), if_neg (by simp [mpUint16]; omega),
    if_neg (by simp [mpUint32]; omega), if_neg (by simp [mpUint64]; omega),
    if_neg (by simp [mpInt8]; omega), if_neg (by simp [mpInt16]; omega),
    if_neg (by simp [mpInt32]; omega), if_neg (by simp [mpInt64]; omega), if_pos h]

theorem parseLong_negfix {c : Nat} (h1 : 0xe0 ≤ c) (h2 : c ≤ 0xff) (tl : List Nat) :
    parseLong (c :: tl) = .ok (sext8 c) := by
  rw [parseLong]
  simp only [List.headD_cons]
  rw [if_neg (by simp [mpUint8]; omega), if_neg (by simp [mpUint16]; omega),
    if_neg (by simp [mpUint32]; omega), if_neg (by simp [mpUint64]; omega),
    if_neg (by simp [mpInt8]; omega), if_neg (by simp [mpInt16]; omega),
    if_neg (by simp [mpInt32]; omega), if_neg (by simp [mpInt64]; omega),
    if_neg (by omega), if_pos (by omega)]

theorem parseLong_uint8 (tl : List Nat) :
    parseLong (mpUint8 :: tl) = .ok ((tl.getD 0 0 : Nat) : Int) := by
  rw [parseLong]
  simp [mpUint8, List.getD]

theorem parseLong_uint16 (tl : List Nat) :
    parseLong (mpUint16 :: tl) = .ok ((rd16 tl : Nat) : Int) := by
  rw [parseLong]
  simp [mpUint8, mpUint16]

theorem parseLong_uint32 (tl : List Nat) :
    parseLong (mpUint32 :: tl) = .ok ((rd32 tl : Nat) : Int) := by
  rw [parseLong]
  simp [mpUint8, mpUint16, mpUint32]

theorem parseLong_uint64 (tl : List Nat) :
    parseLong (mpUint64 :: tl) = .ok (sext64 (rd64 tl)) := by
  rw [parseLong]
  simp [mpUint8, mpUint16, mpUint32, mpUint64]

theorem parseLong_int8 (tl : List Nat) :
    parseLong (mpInt8 :: tl) = .ok (sext8 (tl.getD 0 0)) := by
  rw [parseLong]
  simp [mpUint8, mpUint16, mpUint32, mpUint64, mpInt8, List.getD]

theorem parseLong_int16 (tl : List Nat) :
    parseLong (mpInt16 :: tl) = .ok (sext16 (rd16 tl)) := by
  rw [parseLong]
  simp [mpUint8, mpUint16, mpUint32, mpUint64, mpInt8, mpInt16]

theorem parseLong_int32 (tl : List Nat) :
    parseLong (mpInt32 :: tl) = .ok (sext32 (rd32 tl)) := by
  rw [parseLong]
  simp [mpUint8, mpUint16, mpUint32, mpUint64, mpInt8, mpInt16, mpInt32]

theorem parseLong_int64 (tl : List Nat) :
    parseLong (mpInt64 :: tl) = .ok (sext64 (rd64 tl)) := by
  rw [parseLong]
  simp [mpUint8, mpUint16, mpUint32, mpUint64, mpInt8, mpInt16, mpInt32, mpInt64]

theorem doParse_writeLong {v : Int} (hlo : -(2^63) ≤ v) (hhi : v < 2^63)
    (fuel : Nat) (rest : List Nat) :
    doParse (fuel + 1) (writeLong v ++ rest) = .ok (some (.long v), rest) := by
  rcases Int.lt_or_le v 0 with hneg | hpos
  · rw [writeLong, if_neg (by omega)]
    by_cases h1 : -32 ≤ v
    · rw [if_pos h1]
      have hb : 0xe0 ≤ intByte v ∧ intByte v ≤ 0xff := by
        rw [intByte]
        omega
      rw [List.cons_append, List.nil_append, doParse]
      rw [next_eq _ rest .LongToken 0 (nextFormat_negfix hb.1 hb.2) (by omega)]
      simp only [List.take_zero, List.drop_zero]
      rw [parseLong_negfix hb.1 hb.2]
      simp only [Except.map]
      rw [sext8_intByte (by omega) hneg]
    · rw [if_neg h1]
      by_cases h2 : -128 ≤ v
      · rw [if_pos h2]
        rw [List.cons_append, doParse]
        rw [next_eq _ _ .LongToken 1 (by decide) (by simp)]
        simp only [List.take_succ_cons, List.take_zero, List.drop_succ_cons,
          List.drop_zero, List.cons_append, List.nil_append]
        rw [parseLong_int8]
        simp [Except.map, List.getD, sext8_intByte h2 hneg]
      · rw [if_neg h2]
        by_cases h3 : -32768 ≤ v
        · rw [if_pos h3]
          rw [List.cons_append, doParse]
          rw [next_eq _ _ .LongToken 2 (by decide) (by simp [be16])]
          have hsp : (be16 (intWord v (2^16)) ++ rest).take 2 = be16 (intWord v (2^16)) ∧
              (be16 (intWord v (2^16)) ++ rest).drop 2 = rest := by
            constructor
            · rw [List.take_append_of_le_length (by simp [be16])]
              simp [be16]
            · rw [List.drop_append_of_le_length (by simp [be16])]
              simp [be16]
          rw [hsp.1, hsp.2]
          simp only []
          rw [parseLong_int16]
          simp only [Except.map]
          rw [rd16_be16 (by rw [intWord]; omega)]
          rw [sext16_intWord h3 hneg]
        · rw [if_neg h3]
          by_cases h4 : -2147483648 ≤ v
          · rw [if_pos h4]
            rw [List.cons_append, doParse]
            rw [next_eq _ _ .LongToken 4 (by decide) (by simp [be32])]
            have hsp : (be32 (intWord v (2^32)) ++ rest).take 4 = be32 (intWord v (2^32)) ∧
                (be32 (intWord v (2^32)) ++ rest).drop 4 = rest := by
              constructor
              · rw [List.take_append_of_le_length (by simp [be32])]
                simp [be32]
              · rw [List.drop_append_of_le_length (by simp [be32])]
                simp [be32]
            rw [hsp.1, hsp.2]
            simp only []
            rw [parseLong_int32]
            simp only [Except.map]
            rw [rd32_be32 (by rw [intWord]; omega)]
            rw [sext32_intWord h4 hneg]
          · rw [if_neg h4]
            rw [List.cons_append, doParse]
            rw [next_eq _ _ .LongToken 8 (by decide) (by simp [be64])]
            have hsp : (be64 (intWord v (2^64)) ++ rest).take 8 = be64 (intWord v (2^64)) ∧
                (be64 (intWord v (2^64)) ++ rest).drop 8 = rest := by
              constructor
              · rw [List.take_append_of_le_length (by simp [be64])]
                simp [be64]
              · rw [List.drop_append_of_le_length (by simp [be64])]
                simp [be64]
            rw [hsp.1, hsp.2]
            simp only []
            rw [parseLong_int64]
            simp only [Except.map]
            rw [rd64_be64 (by rw [intWord]; omega)]
            rw [sext64_intWord hlo hneg]
  · rw [writeLong, if_pos hpos, writeVULong]
    by_cases h1 : v.toNat ≤ 0x7f
    · rw [if_pos h1]
      rw [List.cons_append, List.nil_append, doParse]
      rw [next_eq _ rest .LongToken 0 (nextFormat_fixint h1) (by omega)]
      simp only [List.take_zero, List.drop_zero]
      rw [parseLong_fixint h1]
      simp only [Except.map]
      rw [Int.toNat_of_nonneg hpos]
    · rw [if_neg h1]
      by_cases h2 : v.toNat ≤ 0xff
      · rw [if_pos h2]
        rw [List.cons_append, doParse]
        rw [next_eq _ _ .LongToken 1 (by decide) (by simp)]
        simp only [List.take_succ_cons, List.take_zero, List.drop_succ_cons,
          List.drop_zero, List.cons_append, List.nil_append]
        rw [parseLong_uint8]
        simp [Except.map, List.getD, Int.toNat_of_nonneg hpos]
      · rw [if_neg h2]
        by_cases h3 : v.toNat ≤ 0xffff
        · rw [if_pos h3]
          rw [List.cons_append, doParse]
          rw [next_eq _ _ .LongToken 2 (by decide) (by simp [be16])]
          have hsp : (be16 v.toNat ++ rest).take 2 = be16 v.toNat ∧
              (be16 v.toNat ++ rest).drop 2 = rest := by
            constructor
            · rw [List.take_append_of_le_length (by simp [be16])]
              simp [be16]
            · rw [List.drop_append_of_le_length (by simp [be16])]
              simp [be16]
          rw [hsp.1, hsp.2]
          simp only []
          rw [parseLong_uint16]
          simp only [Except.map]
          rw [rd16_be16 (by omega)]
          rw [Int.toNat_of_nonneg hpos]
        · rw [if_neg h3]
          by_cases h4 : v.toNat ≤ 0xffffffff
          · rw [if_pos h4]
            rw [List.cons_append, doParse]
            rw [next_eq _ _ .LongToken 4 (by decide) (by simp [be32])]
            have hsp : (be32 v.toNat ++ rest).take 4 = be32 v.toNat ∧
                (be32 v.toNat ++ rest).drop 4 = rest := by
              constructor
              · rw [List.take_append_of_le_length (by simp [be32])]
                simp [be32]
              · rw [List.drop_append_of_le_length (by simp [be32])]
                simp [be32]
            rw [hsp.1, hsp.2]
            simp only []
            rw [parseLong_uint32]
            simp only [Except.map]
            rw [rd32_be32 (by omega)]
            rw [Int.toNat_of_nonneg hpos]
          · rw [if_neg h4]
            rw [List.cons_append, doParse]
            rw [next_eq _ _ .LongToken 8 (by decide) (by simp [be64])]
            have hsp : (be64 v.toNat ++ rest).take 8 = be64 v.toNat ∧
                (be64 v.toNat ++ rest).drop 8 = rest := by
              constructor
              · rw [List.take_append_of_le_length (by simp [be64])]
                simp [be64]
              · rw [List.drop_append_of_le_length (by simp [be64])]
                simp [be64]
            rw [hsp.1, hsp.2]
            simp only []
            rw [parseLong_uint64]
            simp only [Except.map]
            rw [rd64_be64 (by omega)]
            rw [sext64_small (by omega)]
            rw [Int.toNat_of_nonneg hpos]

end GoValue

namespace GoValue

/-! ## Decoding the scalar tokens -/

theorem readN_exact (s rest : List Nat) : readN s.length (s ++ rest) = .ok (s, rest) := by
  rw [readN, if_neg (by simp)]
  rw [List.take_left, List.drop_left]

theorem doParse_writeNil (fuel : Nat) (rest : List Nat) :
    doParse (fuel + 1) (writeNil ++ rest) = .ok (none, rest) := by
  rw [writeNil, List.cons_append, List.nil_append, doParse]
  rw [next_eq _ rest .NilToken 0 (by decide) (by omega)]
  simp only [List.take_zero, List.drop_zero]

theorem doParse_writeBool (b : Bool) (fuel : Nat) (rest : List Nat) :
    doParse (fuel + 1) (writeBool b ++ rest) = .ok (some (.bool b), rest) := by
  cases b with
  | true =>
      rw [writeBool]
      simp only [if_pos]
      rw [List.cons_append, List.nil_append, doParse]
      rw [next_eq _ rest .BoolToken 0 (by decide) (by omega)]
      simp only [List.take_zero, List.drop_zero]
      rw [parseBool]
      simp [mpTrue, Except.map]
  | false =>
      rw [writeBool]
      simp only [Bool.false_eq_true, if_neg, ite_false]
      rw [List.cons_append, List.nil_append, doParse]
      rw [next_eq _ rest .BoolToken 0 (by decide) (by omega)]
      simp only [List.take_zero, List.drop_zero]
      rw [parseBool]
      simp [mpTrue, mpFalse, Except.map]

theorem doParse_writeDouble {bits : Nat} (h : bits < 2^64) (fuel : Nat) (rest : List Nat) :
    doParse (fuel + 1) (writeDouble bits ++ rest) = .ok (some (.double bits), rest) := by
  rw [writeDouble, List.cons_append, doParse]
  rw [next_eq _ _ .DoubleToken 8 (by decide) (by simp [be64])]
  have h8 : (be64 bits).length = 8 := by simp [be64]
  have hsp1 : (be64 bits ++ rest).take 8 = be64 bits := by
    rw [← h8, List.take_left]
  have hsp2 : (be64 bits ++ rest).drop 8 = rest := by
    rw [← h8, List.drop_left]
  simp [hsp1, hsp2, parseDouble, mpFloat32, mpFloat64, Except.map, rd64_be64 h]

theorem doParse_writeStr {s : List Nat} (h : s.length < 2^32) (fuel : Nat)
    (rest : List Nat) :
    doParse (fuel + 1) ((writeStrHeader s.length ++ s) ++ rest) = .ok (some (.utf8 s), rest) := by
  rw [writeStrHeader]
  by_cases h1 : s.length < 32
  · rw [if_pos h1]
    rw [List.append_assoc, List.cons_append, List.nil_append, doParse]
    rw [next_eq _ _ .StrHeader 0 (nextFormat_fixstr (by omega) (by omega)) (by omega)]
    have h2 : 0xa0 + s.length - 0xa0 = s.length := by omega
    simp only [List.take_zero, List.drop_zero]
    rw [parseStr]
    simp only [List.headD_cons]
    rw [if_pos (by omega)]
    simp [h2, readN_exact, Except.bind, Bind.bind]
  · rw [if_neg h1]
    by_cases h2 : s.length ≤ 0xff
    · rw [if_pos h2]
      rw [List.append_assoc, List.cons_append, doParse]
      rw [next_eq _ _ .StrHeader 1 (by decide) (by simp)]
      simp [parseStr, mpStr8, mpStr16, mpStr32, readN_exact, Except.bind, Bind.bind,
        List.getD_cons_succ, List.getD_cons_zero]
    · rw [if_neg h2]
      by_cases h3 : s.length ≤ 0xffff
      · rw [if_pos h3]
        rw [List.append_assoc, List.cons_append, doParse]
        rw [next_eq _ _ .StrHeader 2 (by decide) (by simp [be16])]
        have h16 : (be16 s.length).length = 2 := by simp [be16]
        have hsp1 : (be16 s.length ++ (s ++ rest)).take 2 = be16 s.length := by
          rw [← h16, List.take_left]
        have hsp2 : (be16 s.length ++ (s ++ rest)).drop 2 = s ++ rest := by
          rw [← h16, List.drop_left]
        simp [hsp1, hsp2, parseStr, mpStr8, mpStr16, mpStr32,
          rd16_be16 (show s.length < 2^16 by omega), readN_exact, Except.bind, Bind.bind]
      · rw [if_neg h3]
        rw [List.append_assoc, List.cons_append, doParse]
        rw [next_eq _ _ .StrHeader 4 (by decide) (by simp [be32])]
        have h32 : (be32 s.length).length = 4 := by simp [be32]
        have hsp1 : (be32 s.length ++ (s ++ rest)).take 4 = be32 s.length := by
          rw [← h32, List.take_left]
        have hsp2 : (be32 s.length ++ (s ++ rest)).drop 4 = s ++ rest := by
          rw [← h32, List.drop_left]
        simp [hsp1, hsp2, parseStr, mpStr8, mpStr16, mpStr32,
          rd32_be32 (show s.length < 2^32 by omega), readN_exact, Except.bind, Bind.bind]

theorem doParse_writeBin {s : List Nat} (h : s.length < 2^32) (fuel : Nat)
    (rest : List Nat) :
    doParse (fuel + 1) ((writeBinHeader s.length ++ s) ++ rest) = .ok (some (.raw s), rest) := by
  rw [writeBinHeader]
  by_cases h2 : s.length ≤ 0xff
  · rw [if_pos h2]
    rw [List.append_assoc, List.cons_append, doParse]
    rw [next_eq _ _ .BinHeader 1 (by decide) (by simp)]
    simp [parseBin, mpBin8, mpBin16, mpBin32, readN_exact, Except.bind, Bind.bind,
      List.getD_cons_succ, List.getD_cons_zero]
  · rw [if_neg h2]
    by_cases h3 : s.length ≤ 0xffff
    · rw [if_pos h3]
      rw [List.append_assoc, List.cons_append, doParse]
      rw [next_eq _ _ .BinHeader 2 (by decide) (by simp [be16])]
      have h16 : (be16 s.length).length = 2 := by simp [be16]
      have hsp1 : (be16 s.length ++ (s ++ rest)).take 2 = be16 s.length := by
        rw [← h16, List.take_left]
      have hsp2 : (be16 s.length ++ (s ++ rest)).drop 2 = s ++ rest := by
        rw [← h16, List.drop_left]
      simp [hsp1, hsp2, parseBin, mpBin8, mpBin16, mpBin32,
        rd16_be16 (show s.length < 2^16 by omega), readN_exact, Except.bind, Bind.bind]
    · rw [if_neg h3]
      rw [List.append_assoc, List.cons_append, doParse]
      rw [next_eq _ _ .BinHeader 4 (by decide) (by simp [be32])]
      have h32 : (be32 s.length).length = 4 := by simp [be32]
      have hsp1 : (be32 s.length ++ (s ++ rest)).take 4 = be32 s.length := by
        rw [← h32, List.take_left]
      have hsp2 : (be32 s.length ++ (s ++ rest)).drop 4 = s ++ rest := by
        rw [← h32, List.drop_left]
      simp [hsp1, hsp2, parseBin, mpBin8, mpBin16, mpBin32,
        rd32_be32 (show s.length < 2^32 by omega), readN_exact, Except.bind, Bind.bind]

end GoValue

namespace GoValue

/-! ## Decoding extension tokens -/

theorem parseExt_ext8 (n : Nat) (r : List Nat) :
    parseExt (mpExt8 :: n :: r) = .ok (n, r) := by
  simp [parseExt, mpExt8, mpFixExt1, mpFixExt2, mpFixExt4, mpFixExt8, mpFixExt16]

theorem parseExt_ext16 (r : List Nat) :
    parseExt (mpExt16 :: r) = .ok (rd16 r, r.drop 2) := by
  simp [parseExt, mpExt16, mpExt8, mpFixExt1, mpFixExt2, mpFixExt4, mpFixExt8, mpFixExt16]

theorem parseExt_ext32 (r : List Nat) :
    parseExt (mpExt32 :: r) = .ok (rd32 r, r.drop 4) := by
  simp [parseExt, mpExt32, mpExt16, mpExt8, mpFixExt1, mpFixExt2, mpFixExt4, mpFixExt8,
    mpFixExt16]

end GoValue
namespace GoValue

theorem doParse_writeExtHeader (tag : Nat) {data : List Nat} (h : data.length < 2^32)
    (fuel : Nat) (rest : List Nat) :
    doParse (fuel + 1) ((writeExtHeader data.length tag ++ data) ++ rest) =
      match doParseExt (tag :: data) with
      | .ok v => .ok (some v, rest)
      | .error e => .error e := by
  rw [writeExtHeader]
  by_cases e1 : data.length = 1
  · rw [if_pos e1]
    rw [List.append_assoc, List.cons_append, List.cons_append, doParse]
    simp only [List.nil_append]
    rw [next_eq _ _ .FixExtToken 2 (by decide) (by simp; omega)]
    have hx : (tag :: (data ++ rest)).take 2 = tag :: data := by
      rcases (List.length_eq_one.mp e1) with ⟨a, ha⟩
      subst ha
      simp
    have hy : (tag :: (data ++ rest)).drop 2 = rest := by
      rcases (List.length_eq_one.mp e1) with ⟨a, ha⟩
      subst ha
      simp
    rw [hx, hy]
    simp only [List.tail_cons]
    cases hde : doParseExt (tag :: data) with
    | ok v => simp [hde, Except.bind, Bind.bind]
    | error e => simp [hde, Except.bind, Bind.bind]
  · rw [if_neg e1]
    by_cases e2 : data.length = 2
    · rw [if_pos e2]
      rw [List.append_assoc, List.cons_append, List.cons_append, doParse]
      simp only [List.nil_append]
      rw [next_eq _ _ .FixExtToken 3 (by decide) (by simp; omega)]
      have hx : (tag :: (data ++ rest)).take 3 = tag :: data := by
        rcases List.length_eq_two.mp e2 with ⟨a, b, ha⟩
        subst ha
        simp
      have hy : (tag :: (data ++ rest)).drop 3 = rest := by
        rcases List.length_eq_two.mp e2 with ⟨a, b, ha⟩
        subst ha
        simp
      rw [hx, hy]
      simp only [List.tail_cons]
      cases hde : doParseExt (tag :: data) with
      | ok v => simp [hde, Except.bind, Bind.bind]
      | error e => simp [hde, Except.bind, Bind.bind]
    · rw [if_neg e2]
      by_cases e4 : data.length = 4
      · rw [if_pos e4]
        rw [List.append_assoc, List.cons_append, List.cons_append, doParse]
        simp only [List.nil_append]
        rw [next_eq _ _ .FixExtToken 5 (by decide) (by simp; omega)]
        have hx : (tag :: (data ++ rest)).take 5 = tag :: data := by
          simp [List.take_succ_cons]
          rw [← e4, List.take_left]
        have hy : (tag :: (data ++ rest)).drop 5 = rest := by
          simp [List.drop_succ_cons]
          rw [← e4, List.drop_left]
        rw [hx, hy]
        simp only [List.tail_cons]
        cases hde : doParseExt (tag :: data) with
        | ok v => simp [hde, Except.bind, Bind.bind]
        | error e => simp [hde, Except.bind, Bind.bind]
      · rw [if_neg e4]
        by_cases e8 : data.length = 8
        · rw [if_pos e8]
          rw [List.append_assoc, List.cons_append, List.cons_append, doParse]
          simp only [List.nil_append]
          rw [next_eq _ _ .FixExtToken 9 (by decide) (by simp; omega)]
          have hx : (tag :: (data ++ rest)).take 9 = tag :: data := by
            simp [List.take_succ_cons]
            rw [← e8, List.take_left]
          have hy : (tag :: (data ++ rest)).drop 9 = rest := by
            simp [List.drop_succ_cons]
            rw [← e8, List.drop_left]
          rw [hx, hy]
          simp only [List.tail_cons]
          cases hde : doParseExt (tag :: data) with
          | ok v => simp [hde, Except.bind, Bind.bind]
          | error e => simp [hde, Except.bind, Bind.bind]
        · rw [if_neg e8]
          by_cases e16 : data.length = 16
          · rw [if_pos e16]
            rw [List.append_assoc, List.cons_append, List.cons_append, doParse]
            simp only [List.nil_append]
            rw [next_eq _ _ .FixExtToken 17 (by decide) (by simp; omega)]
            have hx : (tag :: (data ++ rest)).take 17 = tag :: data := by
              simp [List.take_succ_cons]
              rw [← e16, List.take_left]
            have hy : (tag :: (data ++ rest)).drop 17 = rest := by
              simp [List.drop_succ_cons]
              rw [← e16, List.drop_left]
            rw [hx, hy]
            simp only [List.tail_cons]
            cases hde : doParseExt (tag :: data) with
            | ok v => simp [hde, Except.bind, Bind.bind]
            | error e => simp [hde, Except.bind, Bind.bind]
          · rw [if_neg e16]
            by_cases eSmall : data.length < 256
            · rw [if_pos eSmall]
              rw [List.append_assoc, List.cons_append, List.cons_append,
                List.cons_append, doParse]
              simp only [List.nil_append]
              rw [next_eq _ _ .ExtHeader 1 (by decide) (by simp)]
              simp only [List.take_succ_cons, List.take_zero, List.drop_succ_cons,
                List.drop_zero]
              rw [parseExt_ext8]
              have hr : readN (data.length + 1) (tag :: (data ++ rest))
                  = .ok (tag :: data, rest) := by
                have hcd : tag :: (data ++ rest) = (tag :: data) ++ rest := by simp
                rw [hcd]
                have hl : (tag :: data).length = data.length + 1 := by simp
                rw [← hl, readN_exact]
              cases hde : doParseExt (tag :: data) with
              | ok v => simp [hr, hde, Except.bind, Bind.bind]
              | error e => simp [hr, hde, Except.bind, Bind.bind]
            · rw [if_neg eSmall]
              by_cases eMid : data.length < 65536
              · rw [if_pos eMid]
                rw [List.append_assoc, List.cons_append, doParse]
                rw [next_eq _ _ .ExtHeader 2 (by decide) (by simp [be16])]
                have h16 : ((be16 data.length ++ [tag]) ++ (data ++ rest)).take 2
                    = be16 data.length := by
                  rw [List.append_assoc]
                  have hb : (be16 data.length).length = 2 := by simp [be16]
                  rw [← hb, List.take_left]
                have h17 : ((be16 data.length ++ [tag]) ++ (data ++ rest)).drop 2
                    = tag :: (data ++ rest) := by
                  rw [List.append_assoc]
                  have hb : (be16 data.length).length = 2 := by simp [be16]
                  rw [← hb, List.drop_left]
                  simp
                rw [h16, h17]
                simp only []
                rw [parseExt_ext16, rd16_be16 (by omega)]
                have hr : readN (data.length + 1) (tag :: (data ++ rest))
                    = .ok (tag :: data, rest) := by
                  have hcd : tag :: (data ++ rest) = (tag :: data) ++ rest := by simp
                  rw [hcd]
                  have hl : (tag :: data).length = data.length + 1 := by simp
                  rw [← hl, readN_exact]
                cases hde : doParseExt (tag :: data) with
                | ok v => simp [hr, hde, Except.bind, Bind.bind]
                | error e => simp [hr, hde, Except.bind, Bind.bind]
              · rw [if_neg eMid]
                rw [List.append_assoc, List.cons_append, doParse]
                rw [next_eq _ _ .ExtHeader 4 (by decide) (by simp [be32])]
                have h16 : ((be32 data.length ++ [tag]) ++ (data ++ rest)).take 4
                    = be32 data.length := by
                  rw [List.append_assoc]
                  have hb : (be32 data.length).length = 4 := by simp [be32]
                  rw [← hb, List.take_left]
                have h17 : ((be32 data.length ++ [tag]) ++ (data ++ rest)).drop 4
                    = tag :: (data ++ rest) := by
                  rw [List.append_assoc]
                  have hb : (be32 data.length).length = 4 := by simp [be32]
                  rw [← hb, List.drop_left]
                  simp
                rw [h16, h17]
                simp only []
                rw [parseExt_ext32, rd32_be32 (by omega)]
                have hr : readN (data.length + 1) (tag :: (data ++ rest))
                    = .ok (tag :: data, rest) := by
                  have hcd : tag :: (data ++ rest) = (tag :: data) ++ rest := by simp
                  rw [hcd]
                  have hl : (tag :: data).length = data.length + 1 := by simp
                  rw [← hl, readN_exact]
                cases hde : doParseExt (tag :: data) with
                | ok v => simp [hr, hde, Except.bind, Bind.bind]
                | error e => simp [hr, hde, Except.bind, Bind.bind]

end GoValue
namespace GoValue

/-! ## Round trips for the extension payloads (big.Int gob, decimal binary) -/

theorem rdBe_append_last (xs : List Nat) (b : Nat) :
    rdBe (xs ++ [b]) = rdBe xs * 256 + b := by
  simp [rdBe, List.foldl_append]

theorem rdBe_natBytes (n : Nat) : rdBe (natBytes n) = n := by
  induction n using Nat.strong_induction_on with
  | _ n ih =>
    rw [natBytes]
    by_cases h0 : n = 0
    · simp [h0, rdBe]
    · rw [if_neg h0, rdBe_append_last, ih (n / 256) (by omega)]
      omega

theorem gob_roundtrip (v : Int) : gobDecodeBigInt (gobBigInt v) = .ok v := by
  rw [gobBigInt]
  by_cases hv : v < 0
  · rw [if_pos hv]
    have hstep : gobDecodeBigInt (3 :: natBytes v.natAbs)
        = .ok (-(rdBe (natBytes v.natAbs) : Int)) := by
      simp [gobDecodeBigInt]
    rw [hstep, rdBe_natBytes]
    congr 1
    omega
  · rw [if_neg hv]
    have hstep : gobDecodeBigInt (2 :: natBytes v.natAbs)
        = .ok ((rdBe (natBytes v.natAbs) : Int)) := by
      simp [gobDecodeBigInt]
    rw [hstep, rdBe_natBytes]
    congr 1
    omega

theorem sext32_small {n : Nat} (h : n < 2^31) : sext32 n = n := by
  rw [sext32, if_pos h]

theorem sext32_int_range {v : Int} (h1 : -(2^31) ≤ v) (h2 : v < 2^31) :
    sext32 (intWord v (2^32)) = v := by
  by_cases hv : v < 0
  · exact sext32_intWord (by norm_num at h1 ⊢; omega) hv
  · rw [intWord_small (by omega) (by norm_num; omega)]
    rw [sext32_small (by norm_num at h2 ⊢; omega)]
    omega

theorem intWord_lt {v : Int} {m : Nat} (h : 0 < m) : intWord v m < m := by
  rw [intWord]
  have h1 : v % (m : Int) < (m : Int) := Int.emod_lt_of_pos v (by exact_mod_cast h)
  have h2 : 0 ≤ v % (m : Int) := Int.emod_nonneg v (by omega)
  omega

theorem decimal_roundtrip {e : Int} (c : Int) (h1 : -(2^31) ≤ e) (h2 : e < 2^31) :
    decimalUnmarshal (decimalBinary e c) = .ok (e, c) := by
  rw [decimalBinary, decimalUnmarshal]
  set w := intWord e (2^32) with hw
  rw [if_neg (by simp [be32])]
  have hlen : (be32 w).length = 4 := by simp [be32]
  have hdp : (be32 w ++ gobBigInt c).drop 4 = gobBigInt c := by
    rw [← hlen, List.drop_left]
  have hr : rd32 (be32 w ++ gobBigInt c) = w := by
    have htk : (be32 w ++ gobBigInt c).take 4 = be32 w := by
      rw [← hlen, List.take_left]
    have hb : rd32 (be32 w) = w := rd32_be32 (by rw [hw]; exact intWord_lt (by norm_num))
    rw [rd32, htk]
    rw [rd32] at hb
    rwa [List.take_of_length_le (by rw [hlen])] at hb
  rw [hdp, gob_roundtrip c, hr]
  simp only []
  rw [hw, sext32_int_range h1 h2]
  rfl

theorem doParse_pack_bigint {v : Int} (h : (gobBigInt v).length < 2^32)
    (fuel : Nat) (rest : List Nat) :
    doParse (fuel + 1) ((writeExtHeader (gobBigInt v).length 1 ++ gobBigInt v) ++ rest) =
      .ok (some (.bigint v), rest) := by
  rw [doParse_writeExtHeader 1 h]
  simp [doParseExt, gob_roundtrip, Except.map]

theorem doParse_pack_decimal {e : Int} (c : Int) (h1 : -(2^31) ≤ e) (h2 : e < 2^31)
    (h : (decimalBinary e c).length < 2^32) (fuel : Nat) (rest : List Nat) :
    doParse (fuel + 1)
        ((writeExtHeader (decimalBinary e c).length 2 ++ decimalBinary e c) ++ rest) =
      .ok (some (.decimal e c), rest) := by
  rw [doParse_writeExtHeader 2 h]
  simp [doParseExt, decimal_roundtrip c h1 h2, Except.map]

theorem doParse_pack_unknown (t : Nat) {dt : List Nat} (h : dt.length < 2^32)
    (h1 : t ≠ 1) (h2 : t ≠ 2) (fuel : Nat) (rest : List Nat) :
    doParse (fuel + 1) ((writeExtHeader dt.length t ++ dt) ++ rest) =
      .ok (some (.unknown (t :: dt)), rest) := by
  rw [doParse_writeExtHeader t h]
  simp [doParseExt, h1, h2]

theorem doParse_arrayHeader {n : Nat} (h0 : 0 < n) (h : n ≤ 0xffff)
    (fuel : Nat) (body : List Nat) :
    doParse (fuel + 1) (writeArrayHeader n ++ body) =
      (doParseElems fuel n body).map (fun p => (some (.list p.1), p.2)) := by
  rw [writeArrayHeader]
  by_cases hf : n < 16
  · rw [if_pos hf, List.cons_append, List.nil_append, doParse]
    rw [next_eq _ _ .ListHeader 0 (nextFormat_fixarray (by omega) (by omega)) (by omega)]
    simp only [List.take_zero, List.drop_zero]
    rw [parseList]
    simp only [List.headD_cons]
    rw [if_pos (by omega)]
    simp only [Except.bind, Bind.bind]
    have hsub : 0x90 + n - 0x90 = n := by omega
    simp only [hsub]
    rw [if_neg (by omega)]
  · rw [if_neg hf, if_pos h, List.cons_append, doParse]
    rw [next_eq _ _ .ListHeader 2 (by decide) (by simp [be16])]
    have hsp1 : (be16 n ++ body).take 2 = be16 n := by
      have hb : (be16 n).length = 2 := by simp [be16]
      rw [← hb, List.take_left]
    have hsp2 : (be16 n ++ body).drop 2 = body := by
      have hb : (be16 n).length = 2 := by simp [be16]
      rw [← hb, List.drop_left]
    rw [hsp1, hsp2]
    simp only []
    rw [parseList]
    simp only [List.headD_cons]
    rw [if_neg (by simp [mpArray16]; try omega)]
    have hrd : rd16 (be16 n) = n := rd16_be16 (by omega)
    simp [hrd, Except.bind, Bind.bind, show ¬ n = 0 by omega]

theorem doParse_mapHeader {n : Nat} (h0 : 0 < n) (h : n < 2^32)
    (fuel : Nat) (body : List Nat) :
    doParse (fuel + 1) (writeMapHeader n ++ body) =
      doParseMapLoop fuel n body 0 false false [] [] true 0 [] := by
  rw [writeMapHeader]
  by_cases hf : n < 16
  · rw [if_pos hf, List.cons_append, List.nil_append, doParse]
    rw [next_eq _ _ .MapHeader 0 (nextFormat_fixmap (by omega) (by omega)) (by omega)]
    simp only [List.take_zero, List.drop_zero]
    rw [parseMap]
    simp only [List.headD_cons]
    rw [if_pos (by omega)]
    simp only [Except.bind, Bind.bind]
    have hsub : 0x80 + n - 0x80 = n := by omega
    simp only [hsub]
    rw [if_neg (by omega)]
  · rw [if_neg hf]
    by_cases h16 : n ≤ 0xffff
    · rw [if_pos h16, List.cons_append, doParse]
      rw [next_eq _ _ .MapHeader 2 (by decide) (by simp [be16])]
      have hsp1 : (be16 n ++ body).take 2 = be16 n := by
        have hb : (be16 n).length = 2 := by simp [be16]
        rw [← hb, List.take_left]
      have hsp2 : (be16 n ++ body).drop 2 = body := by
        have hb : (be16 n).length = 2 := by simp [be16]
        rw [← hb, List.drop_left]
      rw [hsp1, hsp2]
      simp only []
      rw [parseMap]
      simp only [List.headD_cons]
      rw [if_neg (by simp [mpMap16]; try omega)]
      have hrd : rd16 (be16 n) = n := rd16_be16 (by omega)
      simp [hrd, Except.bind, Bind.bind, show ¬ n = 0 by omega]
    · rw [if_neg h16, List.cons_append, doParse]
      rw [next_eq _ _ .MapHeader 4 (by decide) (by simp [be32])]
      have hsp1 : (be32 n ++ body).take 4 = be32 n := by
        have hb : (be32 n).length = 4 := by simp [be32]
        rw [← hb, List.take_left]
      have hsp2 : (be32 n ++ body).drop 4 = body := by
        have hb : (be32 n).length = 4 := by simp [be32]
        rw [← hb, List.drop_left]
      rw [hsp1, hsp2]
      simp only []
      rw [parseMap]
      simp only [List.headD_cons]
      rw [if_neg (by simp [mpMap32]; try omega), if_neg (by simp [mpMap32, mpMap16])]
      have hrd : rd32 (be32 n) = n := rd32_be32 (by omega)
      simp [hrd, Except.bind, Bind.bind, show ¬ n = 0 by omega]

theorem sparseSorted_key (k : Int) (v w : Option Value) (tl : List (Int × Option Value)) :
    sparseSorted ((k, v) :: tl) = sparseSorted ((k, w) :: tl) := by
  cases tl with
  | nil => rfl
  | cons b r => simp [sparseSorted]

theorem mapSorted_key (k : List Nat) (v w : Option Value)
    (tl : List (List Nat × Option Value)) :
    mapSorted ((k, v) :: tl) = mapSorted ((k, w) :: tl) := by
  cases tl with
  | nil => rfl
  | cons b r => simp [mapSorted]

theorem doParse_emptyArray (fuel : Nat) (body : List Nat) :
    doParse (fuel + 1) (writeArrayHeader 0 ++ body) = .ok (some (.list []), body) := by
  rw [writeArrayHeader, if_pos (by omega), List.cons_append, List.nil_append, doParse]
  rw [next_eq _ _ .ListHeader 0 (nextFormat_fixarray (by omega) (by omega)) (by omega)]
  simp only [List.take_zero, List.drop_zero]
  rw [parseList]
  simp only [List.headD_cons]
  rw [if_pos (by omega)]
  simp [Except.bind, Bind.bind]

theorem doParse_emptyMap (fuel : Nat) (body : List Nat) :
    doParse (fuel + 1) (writeMapHeader 0 ++ body) = .ok (some (.map []), body) := by
  rw [writeMapHeader, if_pos (by omega), List.cons_append, List.nil_append, doParse]
  rw [next_eq _ _ .MapHeader 0 (nextFormat_fixmap (by omega) (by omega)) (by omega)]
  simp only [List.take_zero, List.drop_zero]
  rw [parseMap]
  simp only [List.headD_cons]
  rw [if_pos (by omega)]
  simp [Except.bind, Bind.bind]

theorem depthV_pos (v : Value) : 1 ≤ depthV v := by
  cases v <;> simp [depthV]

theorem depthOpt_pos (x : Option Value) : 1 ≤ depthOpt x := by
  cases x with
  | none => simp [depthOpt]
  | some v => rw [depthOpt]; exact depthV_pos v

theorem writeNil_len : 1 ≤ writeNil.length := by simp [writeNil]

theorem writeBool_len (b : Bool) : 1 ≤ (writeBool b).length := by
  cases b <;> simp [writeBool]

theorem writeVULong_len (v : Nat) : 1 ≤ (writeVULong v).length := by
  rw [writeVULong]
  split_ifs <;> simp [be16, be32, be64]

theorem writeLong_len (v : Int) : 1 ≤ (writeLong v).length := by
  rw [writeLong]
  split_ifs with h
  · exact writeVULong_len v.toNat
  all_goals simp [be16, be32, be64]

theorem writeDouble_len (bits : Nat) : 1 ≤ (writeDouble bits).length := by
  simp [writeDouble, be64]

theorem writeStrHeader_len (n : Nat) : 1 ≤ (writeStrHeader n).length := by
  rw [writeStrHeader]
  split_ifs <;> simp [be16, be32]

theorem writeBinHeader_len (n : Nat) : 1 ≤ (writeBinHeader n).length := by
  rw [writeBinHeader]
  split_ifs <;> simp [be16, be32]

theorem writeExtHeader_len (n t : Nat) : 1 ≤ (writeExtHeader n t).length := by
  rw [writeExtHeader]
  split_ifs <;> simp [be16, be32]

theorem writeArrayHeader_len (n : Nat) : 1 ≤ (writeArrayHeader n).length := by
  rw [writeArrayHeader]
  split_ifs <;> simp [be16, be32]

theorem writeMapHeader_len (n : Nat) : 1 ≤ (writeMapHeader n).length := by
  rw [writeMapHeader]
  split_ifs <;> simp [be16, be32]

/-! ## The packed round trip

`doParse` run on `packValue v ++ rest` consumes exactly the packed bytes and
yields `decodeOf v`, provided `v` satisfies `rtOKValue` and the fuel covers
the nesting depth. The map loop lemmas carry the accumulator state from the
second iteration on (the first iteration initialises the state and is
performed inline in the `sparse`/`map` cases). -/

mutual

theorem doParse_packV (v : Value) (hok : rtOKValue v = true) (fuel : Nat)
    (hf : depthV v ≤ fuel) (rest : List Nat) :
    doParse fuel (packValue v ++ rest) = .ok (decodeOf v, rest) :=
  match v, hok, hf with
  | .null, hok, hf => by
      obtain ⟨f, rfl⟩ : ∃ m, fuel = m + 1 :=
        ⟨fuel - 1, by have := le_trans (depthV_pos _) hf; omega⟩
      simp only [packValue, decodeOf]
      exact doParse_writeNil f rest
  | .bool b, hok, hf => by
      obtain ⟨f, rfl⟩ : ∃ m, fuel = m + 1 :=
        ⟨fuel - 1, by have := le_trans (depthV_pos _) hf; omega⟩
      simp only [packValue, decodeOf]
      exact doParse_writeBool b f rest
  | .long v, hok, hf => by
      obtain ⟨f, rfl⟩ : ∃ m, fuel = m + 1 :=
        ⟨fuel - 1, by have := le_trans (depthV_pos _) hf; omega⟩
      simp only [rtOKValue, decide_eq_true_eq] at hok
      simp only [packValue, decodeOf]
      exact doParse_writeLong hok.1 hok.2 f rest
  | .double bits, hok, hf => by
      obtain ⟨f, rfl⟩ : ∃ m, fuel = m + 1 :=
        ⟨fuel - 1, by have := le_trans (depthV_pos _) hf; omega⟩
      simp only [rtOKValue, Bool.and_eq_true, decide_eq_true_eq] at hok
      simp only [packValue, decodeOf]
      exact doParse_writeDouble hok.1 f rest
  | .bigint v, hok, hf => by
      obtain ⟨f, rfl⟩ : ∃ m, fuel = m + 1 :=
        ⟨fuel - 1, by have := le_trans (depthV_pos _) hf; omega⟩
      simp only [rtOKValue, decide_eq_true_eq] at hok
      simp only [packValue, decodeOf]
      exact doParse_pack_bigint hok f rest
  | .decimal e c, hok, hf => by
      obtain ⟨f, rfl⟩ : ∃ m, fuel = m + 1 :=
        ⟨fuel - 1, by have := le_trans (depthV_pos _) hf; omega⟩
      simp only [rtOKValue, Bool.and_eq_true, decide_eq_true_eq] at hok
      simp only [packValue, decodeOf]
      exact doParse_pack_decimal c hok.1.1 hok.1.2 hok.2 f rest
  | .utf8 s, hok, hf => by
      obtain ⟨f, rfl⟩ : ∃ m, fuel = m + 1 :=
        ⟨fuel - 1, by have := le_trans (depthV_pos _) hf; omega⟩
      simp only [rtOKValue, decide_eq_true_eq] at hok
      simp only [packValue, decodeOf]
      exact doParse_writeStr hok f rest
  | .raw b, hok, hf => by
      obtain ⟨f, rfl⟩ : ∃ m, fuel = m + 1 :=
        ⟨fuel - 1, by have := le_trans (depthV_pos _) hf; omega⟩
      simp only [rtOKValue, decide_eq_true_eq] at hok
      simp only [packValue, decodeOf]
      exact doParse_writeBin hok f rest
  | .unknown [], hok, hf => by
      simp [rtOKValue] at hok
  | .unknown (t :: dt), hok, hf => by
      obtain ⟨f, rfl⟩ : ∃ m, fuel = m + 1 :=
        ⟨fuel - 1, by have := le_trans (depthV_pos _) hf; omega⟩
      simp only [rtOKValue, Bool.and_eq_true, decide_eq_true_eq,
        List.isEmpty_cons, Bool.not_false, List.headD_cons, List.tail_cons,
        true_and] at hok
      obtain ⟨⟨⟨h256, h1⟩, h2⟩, htl⟩ := hok
      simp only [packValue, decodeOf, List.headD_cons, List.tail_cons]
      exact doParse_pack_unknown t htl h1 h2 f rest
  | .list [], hok, hf => by
      obtain ⟨f, rfl⟩ : ∃ m, fuel = m + 1 :=
        ⟨fuel - 1, by have := le_trans (depthV_pos _) hf; omega⟩
      simp only [packValue, packElems, List.length_nil, List.append_nil,
        decodeOf, decodeElems]
      exact doParse_emptyArray f rest
  | .list (x :: r), hok, hf => by
      obtain ⟨f, rfl⟩ : ∃ m, fuel = m + 1 :=
        ⟨fuel - 1, by have := le_trans (depthV_pos _) hf; omega⟩
      simp only [rtOKValue, Bool.and_eq_true, decide_eq_true_eq] at hok
      rw [depthV] at hf
      simp only [packValue]
      rw [List.append_assoc]
      rw [doParse_arrayHeader (by simp) (by omega) f]
      rw [doParseElems_pack (x :: r) hok.2 f (by omega) rest]
      simp [decodeOf, Except.map]
  | .sparse [], hok, hf => by
      simp [rtOKValue] at hok
  | .sparse ((k, v0) :: tl), hok, hf => by
      obtain ⟨f, rfl⟩ : ∃ m, fuel = m + 1 :=
        ⟨fuel - 1, by have := le_trans (depthV_pos _) hf; omega⟩
      simp only [rtOKValue, Bool.and_eq_true, decide_eq_true_eq,
        List.isEmpty_cons, Bool.not_false, true_and] at hok
      obtain ⟨⟨hlen, hsorted⟩, hitems⟩ := hok
      simp only [rtOKItems, Bool.and_eq_true, decide_eq_true_eq] at hitems
      obtain ⟨⟨hkrange, hv0ok⟩, htlok⟩ := hitems
      rw [depthV] at hf
      rw [depthItems] at hf
      have hdv0 : depthOpt v0 ≤ f := by
        have := le_max_left (depthOpt v0) (depthItems tl)
        omega
      have hdtl : depthItems tl ≤ f := by
        have := le_max_right (depthOpt v0) (depthItems tl)
        omega
      have hfpos : 1 ≤ f := le_trans (depthOpt_pos v0) hdv0
      obtain ⟨f2, rfl⟩ : ∃ m, f = m + 1 := ⟨f - 1, by omega⟩
      simp only [packValue]
      rw [List.append_assoc]
      rw [doParse_mapHeader (by simp) (by simpa using hlen)]
      simp only [List.length_cons]
      rw [doParseMapLoop]
      have harg : packItems ((k, v0) :: tl) ++ rest
          = writeLong k ++ (packOpt v0 ++ (packItems tl ++ rest)) := by
        rw [packItems]
        simp [List.append_assoc]
      rw [harg]
      rw [doParse_writeLong hkrange.1 hkrange.2 f2]
      simp only [Except.bind, Bind.bind]
      rw [doParse_packO v0 hv0ok (f2 + 1) hdv0]
      simp only [Except.bind, Bind.bind]
      have hch : sparseSorted ((k, none) :: tl) = true := by
        rw [← sparseSorted_key k v0 none tl]
        rw [← sparseSorted_key k v0 v0 tl] at hsorted
        exact hsorted
      have hloop := doParseMapLoop_items tl htlok (f2 + 1) hdtl (by omega) rest 1
        (by omega) [(k, decodeOpt v0)] [] k [] hch
      simp [kindOf, numLong, hloop, decodeOf, decodeItems]
  | .map [], hok, hf => by
      obtain ⟨f, rfl⟩ : ∃ m, fuel = m + 1 :=
        ⟨fuel - 1, by have := le_trans (depthV_pos _) hf; omega⟩
      simp only [packValue, packEntries, List.length_nil, List.append_nil,
        decodeOf, decodeEntries]
      exact doParse_emptyMap f rest
  | .map ((k, v0) :: tl), hok, hf => by
      obtain ⟨f, rfl⟩ : ∃ m, fuel = m + 1 :=
        ⟨fuel - 1, by have := le_trans (depthV_pos _) hf; omega⟩
      simp only [rtOKValue, Bool.and_eq_true, decide_eq_true_eq] at hok
      obtain ⟨⟨hlen, hsorted⟩, hentries⟩ := hok
      simp only [rtOKEntries, Bool.and_eq_true, decide_eq_true_eq] at hentries
      obtain ⟨⟨hklen, hv0ok⟩, htlok⟩ := hentries
      rw [depthV] at hf
      rw [depthEntries] at hf
      have hdv0 : depthOpt v0 ≤ f := by
        have := le_max_left (depthOpt v0) (depthEntries tl)
        omega
      have hdtl : depthEntries tl ≤ f := by
        have := le_max_right (depthOpt v0) (depthEntries tl)
        omega
      have hfpos : 1 ≤ f := le_trans (depthOpt_pos v0) hdv0
      obtain ⟨f2, rfl⟩ : ∃ m, f = m + 1 := ⟨f - 1, by omega⟩
      simp only [packValue]
      rw [List.append_assoc]
      rw [doParse_mapHeader (by simp) (by omega)]
      simp only [List.length_cons]
      rw [doParseMapLoop]
      have harg : packEntries ((k, v0) :: tl) ++ rest
          = (writeStrHeader k.length ++ k) ++ (packOpt v0 ++ (packEntries tl ++ rest)) := by
        rw [packEntries]
        simp [List.append_assoc]
      rw [harg]
      rw [doParse_writeStr hklen f2]
      simp only [Except.bind, Bind.bind]
      rw [doParse_packO v0 hv0ok (f2 + 1) hdv0]
      simp only [Except.bind, Bind.bind]
      have hch : mapSorted ((k, none) :: tl) = true := by
        rw [← mapSorted_key k v0 none tl]
        exact hsorted
      have hloop := doParseMapLoop_entries tl htlok (f2 + 1) hdtl (by omega) rest 1
        (by omega) [] [(k, decodeOpt v0)] 0 k hch
      simp [kindOf, goStringKey, hloop, decodeOf, decodeEntries]
termination_by sizeOf v

theorem doParse_packO (x : Option Value) (hok : rtOKOpt x = true) (fuel : Nat)
    (hf : depthOpt x ≤ fuel) (rest : List Nat) :
    doParse fuel (packOpt x ++ rest) = .ok (decodeOpt x, rest) :=
  match x, hok, hf with
  | none, hok, hf => by
      obtain ⟨f, rfl⟩ : ∃ m, fuel = m + 1 := ⟨fuel - 1, by
        rw [depthOpt] at hf
        omega⟩
      simp only [packOpt, decodeOpt]
      exact doParse_writeNil f rest
  | some v, hok, hf => by
      rw [depthOpt] at hf
      rw [rtOKOpt] at hok
      simp only [packOpt, decodeOpt]
      exact doParse_packV v hok fuel hf rest
termination_by sizeOf x

theorem doParseElems_pack (xs : List (Option Value)) (hok : rtOKElems xs = true)
    (fuel : Nat) (hf : depthElems xs ≤ fuel) (rest : List Nat) :
    doParseElems fuel xs.length (packElems xs ++ rest) = .ok (decodeElems xs, rest) :=
  match xs, hok, hf with
  | [], hok, hf => by
      simp only [packElems, List.length_nil, List.nil_append]
      rw [doParseElems]
      rw [decodeElems]
  | x :: r, hok, hf => by
      simp only [rtOKElems, Bool.and_eq_true] at hok
      rw [depthElems] at hf
      have hdx : depthOpt x ≤ fuel := by
        have := le_max_left (depthOpt x) (depthElems r)
        omega
      have hdr : depthElems r ≤ fuel := by
        have := le_max_right (depthOpt x) (depthElems r)
        omega
      simp only [List.length_cons]
      rw [doParseElems]
      have harg : packElems (x :: r) ++ rest = packOpt x ++ (packElems r ++ rest) := by
        rw [packElems]
        simp [List.append_assoc]
      rw [harg]
      rw [doParse_packO x hok.1 fuel hdx]
      simp only [Except.bind, Bind.bind]
      rw [doParseElems_pack r hok.2 fuel hdr rest]
      simp [decodeElems]
termination_by sizeOf xs

theorem doParseMapLoop_items (items : List (Int × Option Value))
    (hok : rtOKItems items = true) (fuel : Nat) (hf : depthItems items ≤ fuel)
    (h1 : 1 ≤ fuel) (rest : List Nat) (i : Nat) (hi : 1 ≤ i)
    (acc : List (Int × Option Value)) (entries : List (List Nat × Option Value))
    (prev : Int) (pm : List Nat)
    (hch : sparseSorted ((prev, none) :: items) = true) :
    doParseMapLoop fuel items.length (packItems items ++ rest) i true true acc entries
        true prev pm
      = .ok (some (.sparse (acc ++ decodeItems items)), rest) :=
  match items, hok, hf, hch with
  | [], hok, hf, hch => by
      simp only [packItems, List.length_nil, List.nil_append]
      rw [doParseMapLoop]
      simp [sparseListOf, decodeItems]
  | (k, v0) :: tl, hok, hf, hch => by
      simp only [rtOKItems, Bool.and_eq_true, decide_eq_true_eq] at hok
      obtain ⟨⟨hkrange, hv0ok⟩, htlok⟩ := hok
      rw [depthItems] at hf
      have hdv0 : depthOpt v0 ≤ fuel := by
        have := le_max_left (depthOpt v0) (depthItems tl)
        omega
      have hdtl : depthItems tl ≤ fuel := by
        have := le_max_right (depthOpt v0) (depthItems tl)
        omega
      obtain ⟨f2, rfl⟩ : ∃ m, fuel = m + 1 := ⟨fuel - 1, by omega⟩
      simp only [sparseSorted, Bool.and_eq_true, decide_eq_true_eq] at hch
      simp only [List.length_cons]
      rw [doParseMapLoop]
      have harg : packItems ((k, v0) :: tl) ++ rest
          = writeLong k ++ (packOpt v0 ++ (packItems tl ++ rest)) := by
        rw [packItems]
        simp [List.append_assoc]
      rw [harg]
      rw [doParse_writeLong hkrange.1 hkrange.2 f2]
      simp only [Except.bind, Bind.bind]
      rw [doParse_packO v0 hv0ok (f2 + 1) hdv0]
      simp only [Except.bind, Bind.bind]
      have hch2 : sparseSorted ((k, none) :: tl) = true := by
        rw [← sparseSorted_key k v0 none tl]
        rw [← sparseSorted_key k v0 v0 tl] at hch
        exact hch.2
      have hnot : ¬ (0 < i ∧ prev > k) := by
        intro hcon
        exact absurd hch.1 (by omega)
      have hloop := doParseMapLoop_items tl htlok (f2 + 1) hdtl (by omega) rest (i + 1)
        (by omega) (acc ++ [(k, decodeOpt v0)]) entries k pm hch2
      simp [kindOf, numLong, show ¬ i = 0 by omega, hnot, hloop, decodeItems]
termination_by sizeOf items

theorem doParseMapLoop_entries (es : List (List Nat × Option Value))
    (hok : rtOKEntries es = true) (fuel : Nat) (hf : depthEntries es ≤ fuel)
    (h1 : 1 ≤ fuel) (rest : List Nat) (i : Nat) (hi : 1 ≤ i)
    (items : List (Int × Option Value)) (acc : List (List Nat × Option Value))
    (pl : Int) (pm : List Nat)
    (hch : mapSorted ((pm, none) :: es) = true) :
    doParseMapLoop fuel es.length (packEntries es ++ rest) i true false items acc
        true pl pm
      = .ok (some (.map (acc ++ decodeEntries es)), rest) :=
  match es, hok, hf, hch with
  | [], hok, hf, hch => by
      simp only [packEntries, List.length_nil, List.nil_append]
      rw [doParseMapLoop]
      simp [sortedMapOf, decodeEntries]
  | (k, v0) :: tl, hok, hf, hch => by
      simp only [rtOKEntries, Bool.and_eq_true, decide_eq_true_eq] at hok
      obtain ⟨⟨hklen, hv0ok⟩, htlok⟩ := hok
      rw [depthEntries] at hf
      have hdv0 : depthOpt v0 ≤ fuel := by
        have := le_max_left (depthOpt v0) (depthEntries tl)
        omega
      have hdtl : depthEntries tl ≤ fuel := by
        have := le_max_right (depthOpt v0) (depthEntries tl)
        omega
      obtain ⟨f2, rfl⟩ : ∃ m, fuel = m + 1 := ⟨fuel - 1, by omega⟩
      simp only [mapSorted, Bool.and_eq_true] at hch
      simp only [List.length_cons]
      rw [doParseMapLoop]
      have harg : packEntries ((k, v0) :: tl) ++ rest
          = (writeStrHeader k.length ++ k) ++ (packOpt v0 ++ (packEntries tl ++ rest)) := by
        rw [packEntries]
        simp [List.append_assoc]
      rw [harg]
      rw [doParse_writeStr hklen f2]
      simp only [Except.bind, Bind.bind]
      rw [doParse_packO v0 hv0ok (f2 + 1) hdv0]
      simp only [Except.bind, Bind.bind]
      have hch2 : mapSorted ((k, none) :: tl) = true := by
        rw [← mapSorted_key k v0 none tl]
        exact hch.2
      have hnot : ¬ (0 < i ∧ strLt k pm = true) := by
        intro hcon
        have := hch.1
        rw [strLe] at this
        simp [hcon.2] at this
      have hloop := doParseMapLoop_entries tl htlok (f2 + 1) hdtl (by omega) rest (i + 1)
        (by omega) items (acc ++ [(k, decodeOpt v0)]) pl k hch2
      simp [kindOf, goStringKey, show ¬ i = 0 by omega, hnot, hloop, decodeEntries]
termination_by sizeOf es

end

/-! ## The decoded value is `Equal` to the original -/

theorem decodeElems_length (xs : List (Option Value)) :
    (decodeElems xs).length = xs.length := by
  induction xs with
  | nil => rfl
  | cons x r ih => rw [decodeElems]; simp [ih]

theorem sparseLen_cons2 (a b : Int × Option Value) (l : List (Int × Option Value)) :
    sparseLen (a :: b :: l) = sparseLen (b :: l) := by
  simp [sparseLen, List.getLast?_cons_cons]

theorem sparseLen_decode (items : List (Int × Option Value)) :
    sparseLen (decodeItems items) = sparseLen items := by
  induction items with
  | nil => rfl
  | cons kv tl ih =>
      obtain ⟨k, v⟩ := kv
      cases tl with
      | nil => rfl
      | cons b r =>
          obtain ⟨k2, v2⟩ := b
          calc sparseLen (decodeItems ((k, v) :: (k2, v2) :: r))
              = sparseLen ((k, decodeOpt v) :: decodeItems ((k2, v2) :: r)) := by
                  rw [decodeItems]
            _ = sparseLen (decodeItems ((k2, v2) :: r)) := by
                  rw [decodeItems]
                  exact sparseLen_cons2 _ _ _
            _ = sparseLen ((k2, v2) :: r) := ih
            _ = sparseLen ((k, v) :: (k2, v2) :: r) := (sparseLen_cons2 _ _ _).symm

theorem decodeEntries_length (es : List (List Nat × Option Value)) :
    (decodeEntries es).length = es.length := by
  induction es with
  | nil => rfl
  | cons kv r ih =>
      obtain ⟨k, v⟩ := kv
      rw [decodeEntries]; simp [ih]

theorem getD_append_len {α : Type} (pre : List α) (x : α) (l : List α) (d : α) :
    (pre ++ x :: l).getD pre.length d = x := by
  induction pre with
  | nil => rfl
  | cons a t ih => simpa [List.getD_cons_succ] using ih

mutual

theorem equal_decodeV (v : Value) (hok : rtOKValue v = true) :
    valueEqual v (decodeOf v) = true :=
  match v, hok with
  | .null, _ => by simp [decodeOf, valueEqual]
  | .bool b, _ => by simp [decodeOf, valueEqual, kindOf, boolVal]
  | .long n, _ => by simp [decodeOf, valueEqual, kindOf, numLong]
  | .double bits, hok => by
      simp only [rtOKValue, Bool.and_eq_true, decide_eq_true_eq] at hok
      simp [decodeOf, valueEqual, kindOf, numIsNaN, f64IsNaN, f64IsInf, hok.2,
        numDoubleQ, precisionLevel]
  | .bigint n, _ => by simp [decodeOf, valueEqual, kindOf, numBigInt]
  | .decimal e c, _ => by
      simp [decodeOf, valueEqual, kindOf, numDecimal, decimalCmpEq]
  | .utf8 s, _ => by simp [decodeOf, valueEqual, kindOf, stringText]
  | .raw b, _ => by simp [decodeOf, valueEqual, kindOf, stringRaw]
  | .unknown d, _ => by simp [decodeOf, valueEqual, kindOf, unknownNative]
  | .list xs, hok => by
      simp only [rtOKValue, Bool.and_eq_true, decide_eq_true_eq] at hok
      have h2 := equal_decodeElems xs hok.2 []
      simp only [List.nil_append, List.length_nil, Nat.cast_zero] at h2
      simp [decodeOf, valueEqual, kindOf, listLen, decodeElems_length, h2]
  | .sparse items, hok => by
      simp only [rtOKValue, Bool.and_eq_true, decide_eq_true_eq] at hok
      have h2 := equal_decodeItems items hok.2
      simp [decodeOf, valueEqual, kindOf, listLen, sparseLen_decode, listItemsOf, h2]
  | .map es, hok => by
      simp only [rtOKValue, Bool.and_eq_true, decide_eq_true_eq] at hok
      have h2 := equal_decodeEntries es hok.2
      simp [decodeOf, valueEqual, kindOf, mapLen, decodeEntries_length, mapEntriesOf, h2]
termination_by sizeOf v

theorem equal_decodeO (x : Option Value) (hok : rtOKOpt x = true) :
    Equal x (decodeOpt x) = true :=
  match x, hok with
  | none, _ => by simp [decodeOpt, Equal]
  | some v, hok => by
      rw [rtOKOpt] at hok
      simp only [decodeOpt, Equal]
      exact equal_decodeV v hok
termination_by sizeOf x

theorem equal_decodeElems (xs : List (Option Value)) (hok : rtOKElems xs = true)
    (pre : List (Option Value)) :
    solidEqElems xs (.list (pre ++ decodeElems xs)) (pre.length : Int) = true :=
  match xs, hok with
  | [], _ => by rw [solidEqElems]
  | x :: r, hok => by
      simp only [rtOKElems, Bool.and_eq_true] at hok
      rw [decodeElems, solidEqElems]
      have h1 : listGetAt (.list (pre ++ decodeOpt x :: decodeElems r)) (pre.length : Int)
          = decodeOpt x := by
        rw [listGetAt]
        rw [if_pos (by exact_mod_cast Nat.zero_le pre.length)]
        rw [Int.toNat_natCast]
        exact getD_append_len pre _ _ _
      have h2 := equal_decodeElems r hok.2 (pre ++ [decodeOpt x])
      simp only [List.append_assoc, List.singleton_append, List.length_append,
        List.length_cons, List.length_nil, Nat.cast_add, Nat.cast_one,
        Nat.cast_zero, zero_add] at h2
      have h3 := equal_decodeO x hok.1
      simp [h1, h3, h2]
termination_by sizeOf xs

theorem equal_decodeItems (items : List (Int × Option Value))
    (hok : rtOKItems items = true) :
    itemsEqual items (decodeItems items) = true :=
  match items, hok with
  | [], _ => by rw [decodeItems, itemsEqual]
  | (k, v) :: tl, hok => by
      simp only [rtOKItems, Bool.and_eq_true, decide_eq_true_eq] at hok
      rw [decodeItems, itemsEqual]
      have h1 := equal_decodeO v hok.1.2
      have h2 := equal_decodeItems tl hok.2
      simp [h1, h2]
termination_by sizeOf items

theorem equal_decodeEntries (es : List (List Nat × Option Value))
    (hok : rtOKEntries es = true) :
    entriesEqual es (decodeEntries es) = true :=
  match es, hok with
  | [], _ => by rw [decodeEntries, entriesEqual]
  | (k, v) :: tl, hok => by
      simp only [rtOKEntries, Bool.and_eq_true, decide_eq_true_eq] at hok
      rw [decodeEntries, entriesEqual]
      have h1 := equal_decodeO v hok.1.2
      have h2 := equal_decodeEntries tl hok.2
      simp [h1, h2]
termination_by sizeOf es

end

/-! ## Fuel from the packed length -/

mutual

theorem depth_le_packV (v : Value) : depthV v ≤ (packValue v).length :=
  match v with
  | .null => by simpa [packValue, depthV] using writeNil_len
  | .bool b => by simpa [packValue, depthV] using writeBool_len b
  | .long n => by simpa [packValue, depthV] using writeLong_len n
  | .double bits => by simpa [packValue, depthV] using writeDouble_len bits
  | .bigint n => by
      have := writeExtHeader_len (gobBigInt n).length 1
      simp only [packValue, depthV, List.length_append]
      omega
  | .decimal e c => by
      have := writeExtHeader_len (decimalBinary e c).length 2
      simp only [packValue, depthV, List.length_append]
      omega
  | .utf8 s => by
      have := writeStrHeader_len s.length
      simp only [packValue, depthV, List.length_append]
      omega
  | .raw b => by
      have := writeBinHeader_len b.length
      simp only [packValue, depthV, List.length_append]
      omega
  | .unknown d => by
      have := writeExtHeader_len d.tail.length (d.headD 0)
      simp only [packValue, depthV, List.length_append]
      omega
  | .list xs => by
      have h1 := writeArrayHeader_len xs.length
      have h2 := depth_le_packElems xs
      simp only [packValue, depthV, List.length_append]
      omega
  | .sparse items => by
      have h1 := writeMapHeader_len items.length
      have h2 := depth_le_packItems items
      simp only [packValue, depthV, List.length_append]
      omega
  | .map es => by
      have h1 := writeMapHeader_len es.length
      have h2 := depth_le_packEntries es
      simp only [packValue, depthV, List.length_append]
      omega
termination_by sizeOf v

theorem depth_le_packO (x : Option Value) : depthOpt x ≤ (packOpt x).length :=
  match x with
  | none => by simpa [packOpt, depthOpt] using writeNil_len
  | some v => by
      have := depth_le_packV v
      simpa [packOpt, depthOpt] using this
termination_by sizeOf x

theorem depth_le_packElems (xs : List (Option Value)) :
    depthElems xs ≤ (packElems xs).length :=
  match xs with
  | [] => by simp [packElems, depthElems]
  | x :: r => by
      have h1 := depth_le_packO x
      have h2 := depth_le_packElems r
      simp only [packElems, depthElems, List.length_append]
      omega
termination_by sizeOf xs

theorem depth_le_packItems (items : List (Int × Option Value)) :
    depthItems items ≤ (packItems items).length :=
  match items with
  | [] => by simp [packItems, depthItems]
  | (k, v) :: tl => by
      have h1 := depth_le_packO v
      have h2 := depth_le_packItems tl
      simp only [packItems, depthItems, List.length_append]
      omega
termination_by sizeOf items

theorem depth_le_packEntries (es : List (List Nat × Option Value)) :
    depthEntries es ≤ (packEntries es).length :=
  match es with
  | [] => by simp [packEntries, depthEntries]
  | (k, v) :: tl => by
      have h1 := depth_le_packO v
      have h2 := depth_le_packEntries tl
      simp only [packEntries, depthEntries, List.length_append]
      omega
termination_by sizeOf es

end

/-- `Unpack` run on `Pack` output succeeds and returns the decoded value. -/
theorem Unpack_Pack (v : Value) (hok : rtOKValue v = true) :
    Unpack (Pack (some v)) = .ok (decodeOf v) := by
  rw [Pack, Unpack]
  have h := doParse_packV v hok (packValue v).length (depth_le_packV v) []
  rw [List.append_nil] at h
  rw [h]
  rfl

/-! ## Claim theorems -/

/-- C10: the `Equal(left, right)` facade is asymmetric in nil handling —
`Equal(Null, nil)` is true because `nullValue.Equal` accepts a nil argument,
while `Equal(nil, Null)` is false because a nil left operand only equals a nil
right operand. -/
theorem c10_equal_nil_asymmetric :
    Equal (some .null) none = true ∧ Equal none (some .null) = false := by
  constructor
  · rw [Equal, valueEqual]
  · rw [Equal]
    rfl

/-- C6: the claim says lists with `65535 < n < 2^32` get the array32 header.
In the source, `WriteArrayHeader`'s default branch writes the `mpArray16` code
byte (0xdc) followed by a 4-byte big-endian length: no list header ever starts
with the array32 code 0xdd, and `n = 65536` produces `dc 00 01 00 00`. -/
theorem c6_array32_never_emitted :
    (∀ n : Nat, (writeArrayHeader n).headD 0 ≠ mpArray32) ∧
      writeArrayHeader 65536 = [0xdc, 0x00, 0x01, 0x00, 0x00] := by
  constructor
  · intro n
    rw [writeArrayHeader]
    split_ifs <;> simp [mpArray16, mpArray32, be16, be32] <;> omega
  · decide

/-- C4: the claim says a failed write is recorded as a sticky error returned
by `Error()` and later operations are no-ops. In the source every packer
method except `PackExt` has a value receiver, so the error assignment is lost:
with a writer whose first write fails, after `PackLong(1); PackBool(true)` the
packer reports no error and the second operation has written its byte. -/
theorem c4_packer_error_lost :
    packerError (packerPackBool (packerPackLong ⟨⟨1, []⟩, none⟩ 1) true) = none ∧
      (packerPackBool (packerPackLong ⟨⟨1, []⟩, none⟩ 1) true).w.written = [0xc3] := by
  decide

end GoValue

namespace GoValue

/-- C3: the claim says that on abandoning the sparse-list hypothesis the
decoder converts the collected integer keys to decimal-string map entries and
continues. In the source, `doParseMap`'s conversion loop reads
`list.items[i]` with the outer index `i` instead of the loop index `j`; at
that point `items[i]` is the just-appended nil `ListItem`, so the conversion
dereferences a nil interface and panics. The wire map `{0: true, "a": true}`
(bytes `82 00 c3 a1 61 c3`) reproduces it: decoding panics instead of
returning a map with key `"0"`. -/
theorem c3_sparse_abandon_panics :
    Unpack [0x82, 0x00, 0xc3, 0xa1, 0x61, 0xc3] = .error .panicNilItem := by
  simp +decide [Unpack, doParse, doParseMapLoop, next, nextFormat, mpCodeFormat,
    mpCodeSize, parseBool, parseLong, parseDouble, parseBin, parseStr, parseList,
    parseMap, parseExt, readN, doParseExt, sparseListOf, sortedMapOf, Bind.bind,
    Except.bind, Except.map, rd16, rd32, rdBe, strLt, kindOf, numLong, goStringKey]

/-- C5: `WriteLong` picks the minimal-width MessagePack integer encoding with
unsigned forms preferred for non-negative values: the five quoted boundary
bytes are exact, and the emitted width follows the boundary table at
±2^7, 2^8, 2^16, 2^32 for every int64 value. -/
theorem c5_writeLong_minimal_width :
    writeLong 127 = [0x7f] ∧ writeLong 128 = [0xcc, 0x80] ∧
    writeLong (-32) = [0xe0] ∧ writeLong (-33) = [0xd0, 0xdf] ∧
    writeLong 2147483647 = [0xce, 0x7f, 0xff, 0xff, 0xff] ∧
    ∀ v : Int,
      (writeLong v).length =
        if -32 ≤ v ∧ v ≤ 127 then 1
        else if (128 ≤ v ∧ v ≤ 255) ∨ (-128 ≤ v ∧ v < -32) then 2
        else if (256 ≤ v ∧ v ≤ 65535) ∨ (-32768 ≤ v ∧ v < -128) then 3
        else if (65536 ≤ v ∧ v ≤ 4294967295) ∨ (-2147483648 ≤ v ∧ v < -32768) then 5
        else 9 := by
  refine ⟨by decide, by decide, by decide, by decide, by decide, ?_⟩
  intro v
  rw [writeLong, writeVULong]
  split_ifs <;> simp [be16, be32, be64] <;> omega

/-- C7: a non-empty sparse list's `Len()` is the maximum stored key plus one
(not the entry count); in particular the `PutAt(7,777).PutAt(9,999).
PutAt(5,555)` chain from the empty sparse list reports length 10. -/
theorem c7_sparse_len_is_max_key_plus_one :
    (∀ items : List (Int × Option Value), sparseSorted items = true → items ≠ [] →
      sparseLen items = itemsMaxKey items + 1) ∧
    sparseLen (sparsePutAt (sparsePutAt (sparsePutAt [] 7 (some (.long 777)))
        9 (some (.long 999))) 5 (some (.long 555))) = 10 := by
  constructor
  · intro items hs hne
    exact sparseLen_eq_max hs hne
  · simp +decide [sparsePutAt, sparseSearch, sortSearch, sortSearchAux, itemKeyAt,
      sparseLen]

/-- C8: every sorted-map mutator (`Put`, `Insert`, `Remove`, `InsertAll`,
`DeleteAll`) applied to a map in ascending key order yields a map still in
ascending key order. -/
theorem c8_mutators_preserve_sorted (t : List (List Nat × Option Value))
    (key : List Nat) (v : Option Value) (vs : List (Option Value))
    (hs : mapSorted t = true) :
    mapSorted (mapPut t key v) = true ∧ mapSorted (mapInsert t key v) = true ∧
    mapSorted (mapRemove t key) = true ∧ mapSorted (mapInsertAll t key vs) = true ∧
    mapSorted (mapDeleteAll t key) = true := by
  have hp := mapSorted_pairwise.mp hs
  exact ⟨mapSorted_pairwise.mpr (mapPut_pairwise hp),
    mapSorted_pairwise.mpr (mapInsert_pairwise hp),
    mapSorted_pairwise.mpr (mapRemove_pairwise hp),
    mapSorted_pairwise.mpr (mapInsertAll_pairwise hp),
    mapSorted_pairwise.mpr (mapDeleteAll_pairwise hp)⟩

/-- Witness for C8 at the sorted two-entry map `{"a": nil, "b": true}` with
key `"b"`, value `nil`, values `[nil]`. -/
theorem c8_witness :
    mapSorted [([97], none), ([98], some (.bool true))] = true ∧
    (mapSorted (mapPut [([97], none), ([98], some (.bool true))] [98] none) = true ∧
     mapSorted (mapInsert [([97], none), ([98], some (.bool true))] [98] none) = true ∧
     mapSorted (mapRemove [([97], none), ([98], some (.bool true))] [98]) = true ∧
     mapSorted (mapInsertAll [([97], none), ([98], some (.bool true))] [98] [none]) = true ∧
     mapSorted (mapDeleteAll [([97], none), ([98], some (.bool true))] [98]) = true) :=
  ⟨by decide, c8_mutators_preserve_sorted _ [98] none [none] (by decide)⟩

/-- C2 (amended): inserting the same key-value pairs with PAIRWISE-DISTINCT
keys in any order by `Put` into the empty sorted map yields byte-identical
`Pack` output (indeed identical entry lists). The distinct-key hypothesis is
necessary: see the counterexample. -/
theorem c2_put_order_independent_pack (ps qs : List (List Nat × Option Value))
    (hperm : ps.Perm qs) (hnd : (ps.map Prod.fst).Nodup) :
    packValue (.map (mapPutAll ps)) = packValue (.map (mapPutAll qs)) := by
  rw [mapPutAll_order_independent hperm hnd]

/-- Witness for C2 at the two-entry insertion sequences
`[("a",true),("b",nil)]` and `[("b",nil),("a",true)]`. -/
theorem c2_witness :
    ([([97], some (Value.bool true)), ([98], none)] : List (List Nat × Option Value)).Perm
        [([98], none), ([97], some (Value.bool true))] ∧
    ([[97], [98]] : List (List Nat)).Nodup ∧
    packValue (.map (mapPutAll [([97], some (Value.bool true)), ([98], none)])) =
      packValue (.map (mapPutAll [([98], none), ([97], some (Value.bool true))])) :=
  ⟨List.Perm.swap _ _ _, by decide,
    c2_put_order_independent_pack _ _ (List.Perm.swap _ _ _) (by decide)⟩

/-- Counterexample to C2 as stated: with a DUPLICATED key the two insertion
orders leave different values under the key, so the packed bytes differ. -/
theorem c2_counterexample :
    ([([97], some (Value.bool true)), ([97], some (Value.bool false))] :
        List (List Nat × Option Value)).Perm
      [([97], some (Value.bool false)), ([97], some (Value.bool true))] ∧
    packValue (.map (mapPutAll [([97], some (Value.bool true)), ([97], some (Value.bool false))])) ≠
      packValue (.map (mapPutAll [([97], some (Value.bool false)), ([97], some (Value.bool true))])) := by
  refine ⟨List.Perm.swap _ _ _, ?_⟩
  have ha : mapPut [] [97] (some (Value.bool true)) = [([97], some (Value.bool true))] := by
    simp +decide [mapPut, mapSearch, sortSearch, sortSearchAux, entryKeyAt, strLe, strLt]
  have hb : mapPut [] [97] (some (Value.bool false)) = [([97], some (Value.bool false))] := by
    simp +decide [mapPut, mapSearch, sortSearch, sortSearchAux, entryKeyAt, strLe, strLt]
  have h1 : mapPutAll [([97], some (Value.bool true)), ([97], some (Value.bool false))]
      = [([97], some (Value.bool false))] := by
    rw [mapPutAll, List.foldl_cons, List.foldl_cons, List.foldl_nil]
    simp only [ha]
    simp +decide [mapPut, mapSearch, sortSearch, sortSearchAux, entryKeyAt, strLe, strLt]
  have h2 : mapPutAll [([97], some (Value.bool false)), ([97], some (Value.bool true))]
      = [([97], some (Value.bool true))] := by
    rw [mapPutAll, List.foldl_cons, List.foldl_cons, List.foldl_nil]
    simp only [hb]
    simp +decide [mapPut, mapSearch, sortSearch, sortSearchAux, entryKeyAt, strLe, strLt]
  rw [h1, h2]
  decide

/-- C9 (amended): `decimalNumber.Equal` is an EXACT value comparison
(`Cmp == 0` after rescaling to the common exponent), not an epsilon test:
two decimals are Equal iff their exact rational values coincide. The epsilon
part of the claim holds only for the Double sub-type; see the counterexample
for decimals. -/
theorem c9_decimal_equal_exact (e1 c1 e2 c2 : Int) :
    valueEqual (.decimal e1 c1) (some (.decimal e2 c2)) = true ↔
      decimalValue e1 c1 = decimalValue e2 c2 := by
  simp only [valueEqual, kindOf, numDecimal, Bool.and_eq_true, decide_eq_true_eq,
    true_and, and_iff_right_iff_imp]
  rw [decimalCmpEq, decide_eq_true_eq, decimalValue, decimalValue]
  set m := min e1 e2 with hm
  have h1 : ((e1 - m).toNat : ℤ) = e1 - m := Int.toNat_of_nonneg (by omega)
  have h2 : ((e2 - m).toNat : ℤ) = e2 - m := Int.toNat_of_nonneg (by omega)
  have hz : (10 : ℚ) ≠ 0 := by norm_num
  constructor
  · intro h
    have hq : ((c1 * 10 ^ (e1 - m).toNat : ℤ) : ℚ) = ((c2 * 10 ^ (e2 - m).toNat : ℤ) : ℚ) := by
      exact_mod_cast h
    push_cast at hq
    rw [← zpow_natCast (10 : ℚ) (e1 - m).toNat, ← zpow_natCast (10 : ℚ) (e2 - m).toNat,
      h1, h2] at hq
    have hq2 := congrArg (fun q : ℚ => q * 10 ^ (m : ℤ)) hq
    simp only [] at hq2
    rwa [mul_assoc, mul_assoc, ← zpow_add₀ hz, ← zpow_add₀ hz,
      sub_add_cancel, sub_add_cancel] at hq2
  · intro h
    have hq2 := congrArg (fun q : ℚ => q * 10 ^ (-m : ℤ)) h
    simp only [] at hq2
    rw [mul_assoc, mul_assoc, ← zpow_add₀ hz, ← zpow_add₀ hz] at hq2
    have he1 : e1 + -m = e1 - m := by ring
    have he2 : e2 + -m = e2 - m := by ring
    rw [he1, he2, ← h1, ← h2, zpow_natCast, zpow_natCast] at hq2
    exact_mod_cast hq2

/-- Counterexample to C9 as stated for the Decimal sub-type: the decimals
`1e-6` and `0` differ by `10^-6 < 10^-5 = PrecisionLevel`, yet their `Equal`
is false because `decimalNumber.Equal` compares exactly. -/
theorem c9_counterexample :
    valueEqual (.decimal (-6) 1) (some (.decimal 0 0)) = false ∧
      |decimalValue (-6) 1 - decimalValue 0 0| < precisionLevel := by
  constructor
  · simp +decide [valueEqual, kindOf, numDecimal, decimalCmpEq]
  · norm_num [decimalValue, precisionLevel, abs_lt]

/-- C1 (amended): for every value satisfying `rtOKValue` — which excludes the
failing shapes listed in the counterexample note (empty sparse lists,
NaN/infinite doubles, solid lists of 65536 or more elements, unknown
extensions with a reserved tag, oversized payloads, unsorted collections) —
`Unpack(Pack(v))` succeeds with the decoded value and `v.Equal` of the decoded
value holds. -/
theorem c1_round_trip (v : Value) (hok : rtOKValue v = true) :
    Unpack (Pack (some v)) = .ok (decodeOf v) ∧ Equal (some v) (decodeOf v) = true :=
  ⟨Unpack_Pack v hok, by rw [Equal]; exact equal_decodeV v hok⟩

/-- Witness for C1 at a nested map holding a solid list (with a nil hole and
both string sub-types) and a sorted sparse list. -/
theorem c1_witness :
    rtOKValue (Value.map [([97], some (.list [some (.long 300), none,
        some (.utf8 [104, 105])])),
      ([98], some (.sparse [(2, some (.bool true)), (7, some (.raw [0, 255]))]))]) = true ∧
    (Unpack (Pack (some (Value.map [([97], some (.list [some (.long 300), none,
        some (.utf8 [104, 105])])),
      ([98], some (.sparse [(2, some (.bool true)), (7, some (.raw [0, 255]))]))]))) =
        .ok (decodeOf (Value.map [([97], some (.list [some (.long 300), none,
          some (.utf8 [104, 105])])),
        ([98], some (.sparse [(2, some (.bool true)), (7, some (.raw [0, 255]))]))])) ∧
     Equal (some (Value.map [([97], some (.list [some (.long 300), none,
        some (.utf8 [104, 105])])),
      ([98], some (.sparse [(2, some (.bool true)), (7, some (.raw [0, 255]))]))]))
       (decodeOf (Value.map [([97], some (.list [some (.long 300), none,
          some (.utf8 [104, 105])])),
        ([98], some (.sparse [(2, some (.bool true)), (7, some (.raw [0, 255]))]))])) = true) :=
  ⟨by simp +decide [rtOKValue, rtOKOpt, rtOKEntries, rtOKItems, rtOKElems, mapSorted,
      sparseSorted, strLe, strLt],
   c1_round_trip _ (by simp +decide [rtOKValue, rtOKOpt, rtOKEntries, rtOKItems,
      rtOKElems, mapSorted, sparseSorted, strLe, strLt])⟩

/-- Counterexample to C1 as stated: the empty sparse list is constructible
(`EmptySparseList()`), but it packs to the empty-map header `80`, decodes to
an empty sorted MAP, and `Equal` rejects the kind mismatch (LIST vs MAP). -/
theorem c1_counterexample :
    Unpack (Pack (some (.sparse []))) = .ok (some (.map [])) ∧
      Equal (some (.sparse [])) (some (.map [])) = false := by
  constructor
  · simp +decide [Pack, packValue, packItems, writeMapHeader, Unpack, doParse, next,
      nextFormat, mpCodeFormat, mpCodeSize, parseMap, Bind.bind, Except.bind, Except.map]
  · simp +decide [Equal, valueEqual, kindOf]

/-- Witness for C7 at the sparse list with only key 9 populated: length 10. -/
theorem c7_witness :
    sparseSorted [((9 : Int), some (Value.bool true))] = true ∧
      sparseLen [((9 : Int), some (Value.bool true))] = 10 :=
  ⟨by decide,
   (c7_sparse_len_is_max_key_plus_one.1 _ (by decide) (by simp)).trans (by decide)⟩

end GoValue
